import Mathlib

/-!
Shallow embedding of the retrieval core of the `advance-rag` repository
(`api_server.py`, `src/hipporag/rerank.py`, `src/hipporag/retrieval/bm25_retriever.py`),
together with theorems settling the spec claims about it.

Modelling conventions:
* Python strings are Lean `String`s; character-level operations (slicing,
  lowercasing, substring tests) are carried out on `String.data` code-point
  lists, matching Python's code-point semantics.
* Python floats are modelled as rationals `ℚ` (exact arithmetic).
* Python's stable `list.sort(key=..., reverse=True)` is modelled by a
  stable insertion sort `sortD` with the boolean relation "key of the left
  element is lexicographically ≥ key of the right element"; on a total
  transitive relation this produces exactly the stable descending order
  CPython's sort produces (equal keys keep their original order).
* Python's `str.lower()` is modelled with `Char.toLower` (ASCII case map);
  every cased character appearing in the embedded tables is ASCII, and
  Bengali script is caseless, so the two agree on all data in scope.
* External effects (the regex library, LLM calls, the retrieval engine) are
  passed in as explicit function arguments ("oracles"), and the `/ask`
  handler records which external systems it invoked in an event trace.
-/

/-- Insert `a` into `l` in front of the first element `b` with `le a b`;
with `le x y` read as "`x` may come before `y`", this is the insertion step
of a stable sort. -/
def insertD (le : α → α → Bool) (a : α) : List α → List α
  | [] => [a]
  | b :: t => if le a b then a :: b :: t else b :: insertD le a t

/-- Stable insertion sort (the model of CPython's stable `list.sort`). -/
def sortD (le : α → α → Bool) : List α → List α
  | [] => []
  | a :: t => insertD le a (sortD le t)

/-- `needle` occurs as a contiguous sublist of `hay`
(the model of Python's `sub in s` on code-point lists). -/
def occursIn (needle : List Char) : List Char → Bool
  | [] => needle.isEmpty
  | c :: t => needle.isPrefixOf (c :: t) || occursIn needle t

/-- Code points of `s.lower()` (ASCII case map; see module comment). -/
def lowerChars (s : String) : List Char :=
  s.data.map Char.toLower

/-- Python `pattern.lower() in doc_lower` where `doc_lower = doc.lower()`:
case-folded substring test used throughout the university filter. -/
def containsLower (doc pattern : String) : Bool :=
  occursIn (lowerChars pattern) (lowerChars doc)

/-- Plain (not case-folded) substring test between two strings. -/
def containsSub (s sub : String) : Bool :=
  occursIn sub.data s.data

/-- `scores[i] if i < len(scores) else 0.0` (and variants), via `List.getD`. -/
def scoreAt (scores : List ℚ) (i : ℕ) (dflt : ℚ) : ℚ :=
  scores.getD i dflt

/-- An entry of the `UNIVERSITY_FILTER_PATTERNS` table: marker phrases the
passage must contain (at least one) and marker phrases it must not contain. -/
structure EntityFilterRule where
  must_contain : List String
  must_not_contain : List String
deriving DecidableEq, Repr

/-- The `UNIVERSITY_FILTER_PATTERNS` dict of `api_server.py`, as an
insertion-ordered association list. -/
def UNIVERSITY_FILTER_PATTERNS : List (String × EntityFilterRule) := [
  ("jnu", ⟨["‡¶ú‡¶ó‡¶®‡ßç‡¶®‡¶æ‡¶•", "jagannath", "jnu", "‡¶ú‡¶¨‡¶ø", "[‡¶ú‡¶ó‡¶®‡ßç‡¶®‡¶æ‡¶• ‡¶¨‡¶ø‡¶∂‡ßç‡¶¨‡¶¨‡¶ø‡¶¶‡ßç‡¶Ø‡¶æ‡¶≤‡¶Ø‡¶º jnu]"], ["‡¶ú‡¶æ‡¶π‡¶æ‡¶ô‡ßç‡¶ó‡ßÄ‡¶∞‡¶®‡¶ó‡¶∞", "jahangirnagar", "‡¶ú‡¶æ‡¶¨‡¶ø"]⟩),
  ("ju", ⟨["‡¶ú‡¶æ‡¶π‡¶æ‡¶ô‡ßç‡¶ó‡ßÄ‡¶∞‡¶®‡¶ó‡¶∞", "jahangirnagar", "‡¶ú‡¶æ‡¶¨‡¶ø", "[‡¶ú‡¶æ‡¶π‡¶æ‡¶ô‡ßç‡¶ó‡ßÄ‡¶∞‡¶®‡¶ó‡¶∞ ‡¶¨‡¶ø‡¶∂‡ßç‡¶¨‡¶¨‡¶ø‡¶¶‡ßç‡¶Ø‡¶æ‡¶≤‡¶Ø‡¶º ju]"], ["‡¶ú‡¶ó‡¶®‡ßç‡¶®‡¶æ‡¶•", "jagannath", "‡¶ú‡¶¨‡¶ø"]⟩),
  ("ku", ⟨["‡¶ñ‡ßÅ‡¶≤‡¶®‡¶æ ‡¶¨‡¶ø‡¶∂‡ßç‡¶¨‡¶¨‡¶ø‡¶¶‡ßç‡¶Ø‡¶æ‡¶≤‡¶Ø‡¶º", "khulna university", "‡¶ñ‡ßÅ‡¶¨‡¶ø", "[‡¶ñ‡ßÅ‡¶≤‡¶®‡¶æ ‡¶¨‡¶ø‡¶∂‡ßç‡¶¨‡¶¨‡¶ø‡¶¶‡ßç‡¶Ø‡¶æ‡¶≤‡¶Ø‡¶º ku]"], ["‡¶™‡ßç‡¶∞‡¶ï‡ßå‡¶∂‡¶≤", "engineering", "‡¶ï‡ßÅ‡¶Ø‡¶º‡ßá‡¶ü", "kuet"]⟩),
  ("kuet", ⟨["‡¶ï‡ßÅ‡¶Ø‡¶º‡ßá‡¶ü", "kuet", "[‡¶ï‡ßÅ‡¶Ø‡¶º‡ßá‡¶ü", "‡¶ñ‡ßÅ‡¶≤‡¶®‡¶æ ‡¶™‡ßç‡¶∞‡¶ï‡ßå‡¶∂‡¶≤", "admission.kuet"], []⟩),
  ("ru", ⟨["‡¶∞‡¶æ‡¶ú‡¶∂‡¶æ‡¶π‡ßÄ ‡¶¨‡¶ø‡¶∂‡ßç‡¶¨‡¶¨‡¶ø‡¶¶‡ßç‡¶Ø‡¶æ‡¶≤‡¶Ø‡¶º", "rajshahi university", "‡¶∞‡¶æ‡¶¨‡¶ø", "[‡¶∞‡¶æ‡¶ú‡¶∂‡¶æ‡¶π‡ßÄ ‡¶¨‡¶ø‡¶∂‡ßç‡¶¨‡¶¨‡¶ø‡¶¶‡ßç‡¶Ø‡¶æ‡¶≤‡¶Ø‡¶º ru]"], ["‡¶™‡ßç‡¶∞‡¶ï‡ßå‡¶∂‡¶≤", "engineering", "‡¶∞‡ßÅ‡¶Ø‡¶º‡ßá‡¶ü", "ruet"]⟩),
  ("ruet", ⟨["‡¶∞‡ßÅ‡¶Ø‡¶º‡ßá‡¶ü", "ruet", "[‡¶∞‡ßÅ‡¶Ø‡¶º‡ßá‡¶ü", "‡¶∞‡¶æ‡¶ú‡¶∂‡¶æ‡¶π‡ßÄ ‡¶™‡ßç‡¶∞‡¶ï‡ßå‡¶∂‡¶≤", "admission.ruet"], []⟩),
  ("cu", ⟨["‡¶ö‡¶ü‡ßç‡¶ü‡¶ó‡ßç‡¶∞‡¶æ‡¶Æ ‡¶¨‡¶ø‡¶∂‡ßç‡¶¨‡¶¨‡¶ø‡¶¶‡ßç‡¶Ø‡¶æ‡¶≤‡¶Ø‡¶º", "chittagong university", "‡¶ö‡¶¨‡¶ø", "[‡¶ö‡¶ü‡ßç‡¶ü‡¶ó‡ßç‡¶∞‡¶æ‡¶Æ ‡¶¨‡¶ø‡¶∂‡ßç‡¶¨‡¶¨‡¶ø‡¶¶‡ßç‡¶Ø‡¶æ‡¶≤‡¶Ø‡¶º cu]"], ["‡¶™‡ßç‡¶∞‡¶ï‡ßå‡¶∂‡¶≤", "engineering", "‡¶ö‡ßÅ‡¶Ø‡¶º‡ßá‡¶ü", "cuet"]⟩),
  ("cuet", ⟨["‡¶ö‡ßÅ‡¶Ø‡¶º‡ßá‡¶ü", "cuet", "[‡¶ö‡ßÅ‡¶Ø‡¶º‡ßá‡¶ü", "‡¶ö‡¶ü‡ßç‡¶ü‡¶ó‡ßç‡¶∞‡¶æ‡¶Æ ‡¶™‡ßç‡¶∞‡¶ï‡ßå‡¶∂‡¶≤", "admission.cuet"], []⟩),
  ("du", ⟨["‡¶¢‡¶æ‡¶ï‡¶æ ‡¶¨‡¶ø‡¶∂‡ßç‡¶¨‡¶¨‡¶ø‡¶¶‡ßç‡¶Ø‡¶æ‡¶≤‡¶Ø‡¶º", "dhaka university", "‡¶¢‡¶æ‡¶¨‡¶ø", "[‡¶¢‡¶æ‡¶ï‡¶æ ‡¶¨‡¶ø‡¶∂‡ßç‡¶¨‡¶¨‡¶ø‡¶¶‡ßç‡¶Ø‡¶æ‡¶≤‡¶Ø‡¶º du]"], []⟩),
  ("sust", ⟨["‡¶∂‡¶æ‡¶π‡¶ú‡¶æ‡¶≤‡¶æ‡¶≤", "sust", "‡¶∂‡¶æ‡¶¨‡¶ø", "[‡¶∂‡¶æ‡¶π‡¶ú‡¶æ‡¶≤‡¶æ‡¶≤ ‡¶¨‡¶ø‡¶∂‡ßç‡¶¨‡¶¨‡¶ø‡¶¶‡ßç‡¶Ø‡¶æ‡¶≤‡¶Ø‡¶º sust]"], []⟩),
  ("buet", ⟨["‡¶¨‡ßÅ‡¶Ø‡¶º‡ßá‡¶ü", "buet", "[‡¶¨‡ßÅ‡¶Ø‡¶º‡ßá‡¶ü buet]"], []⟩),
  ("cou", ⟨["‡¶ï‡ßÅ‡¶Æ‡¶ø‡¶≤‡ßç‡¶≤‡¶æ ‡¶¨‡¶ø‡¶∂‡ßç‡¶¨‡¶¨‡¶ø‡¶¶‡ßç‡¶Ø‡¶æ‡¶≤‡¶Ø‡¶º", "comilla university", "‡¶ï‡ßÅ‡¶¨‡¶ø", "cou", "[‡¶ï‡ßÅ‡¶Æ‡¶ø‡¶≤‡ßç‡¶≤‡¶æ ‡¶¨‡¶ø‡¶∂‡ßç‡¶¨‡¶¨‡¶ø‡¶¶‡ßç‡¶Ø‡¶æ‡¶≤‡¶Ø‡¶º cou]", "www.cou.ac.bd"], []⟩),
  ("bau", ⟨["‡¶¨‡¶æ‡¶Ç‡¶≤‡¶æ‡¶¶‡ßá‡¶∂ ‡¶ï‡ßÉ‡¶∑‡¶ø ‡¶¨‡¶ø‡¶∂‡ßç‡¶¨‡¶¨‡¶ø‡¶¶‡ßç‡¶Ø‡¶æ‡¶≤‡¶Ø‡¶º", "bangladesh agricultural", "‡¶¨‡¶æ‡¶ï‡ßÉ‡¶¨‡¶ø", "bau", "[‡¶¨‡¶æ‡¶ï‡ßÉ‡¶¨‡¶ø bau]"], []⟩),
  ("nstu", ⟨["‡¶®‡ßã‡¶Ø‡¶º‡¶æ‡¶ñ‡¶æ‡¶≤‡ßÄ ‡¶¨‡¶ø‡¶ú‡ßç‡¶û‡¶æ‡¶®", "noakhali science", "‡¶®‡ßã‡¶¨‡¶ø‡¶™‡ßç‡¶∞‡¶¨‡¶ø", "nstu", "[‡¶®‡ßã‡¶¨‡¶ø‡¶™‡ßç‡¶∞‡¶¨‡¶ø nstu]"], []⟩),
  ("pstu", ⟨["‡¶™‡¶ü‡ßÅ‡¶Ø‡¶º‡¶æ‡¶ñ‡¶æ‡¶≤‡ßÄ ‡¶¨‡¶ø‡¶ú‡ßç‡¶û‡¶æ‡¶®", "patuakhali science", "‡¶™‡¶¨‡¶ø‡¶™‡ßç‡¶∞‡¶¨‡¶ø", "pstu", "[‡¶™‡¶¨‡¶ø‡¶™‡ßç‡¶∞‡¶¨‡¶ø pstu]"], []⟩),
  ("just", ⟨["‡¶Ø‡¶∂‡ßã‡¶∞ ‡¶¨‡¶ø‡¶ú‡ßç‡¶û‡¶æ‡¶®", "jessore science", "jashore science", "‡¶Ø‡¶¨‡¶ø‡¶™‡ßç‡¶∞‡¶¨‡¶ø", "just", "[‡¶Ø‡¶¨‡¶ø‡¶™‡ßç‡¶∞‡¶¨‡¶ø just]"], []⟩),
  ("hstu", ⟨["‡¶π‡¶æ‡¶ú‡ßÄ ‡¶¶‡¶æ‡¶®‡ßá‡¶∂", "hajee danesh", "‡¶π‡¶æ‡¶¨‡¶ø‡¶™‡ßç‡¶∞‡¶¨‡¶ø", "hstu", "[‡¶π‡¶æ‡¶¨‡¶ø‡¶™‡ßç‡¶∞‡¶¨‡¶ø hstu]"], []⟩),
  ("mbstu", ⟨["‡¶Æ‡¶æ‡¶ì‡¶≤‡¶æ‡¶®‡¶æ ‡¶≠‡¶æ‡¶∏‡¶æ‡¶®‡ßÄ", "mawlana bhashani", "‡¶Æ‡¶æ‡¶≠‡¶æ‡¶¨‡¶ø‡¶™‡ßç‡¶∞‡¶¨‡¶ø", "mbstu", "[‡¶Æ‡¶æ‡¶≠‡¶æ‡¶¨‡¶ø‡¶™‡ßç‡¶∞‡¶¨‡¶ø mbstu]"], []⟩),
  ("bu", ⟨["‡¶¨‡¶∞‡¶ø‡¶∂‡¶æ‡¶≤ ‡¶¨‡¶ø‡¶∂‡ßç‡¶¨‡¶¨‡¶ø‡¶¶‡ßç‡¶Ø‡¶æ‡¶≤‡¶Ø‡¶º", "barishal university", "‡¶¨‡¶¨‡¶ø", "[‡¶¨‡¶∞‡¶ø‡¶∂‡¶æ‡¶≤ ‡¶¨‡¶ø‡¶∂‡ßç‡¶¨‡¶¨‡¶ø‡¶¶‡ßç‡¶Ø‡¶æ‡¶≤‡¶Ø‡¶º bu]"], []⟩),
  ("brur", ⟨["‡¶¨‡ßá‡¶ó‡¶Æ ‡¶∞‡ßã‡¶ï‡ßá‡¶Ø‡¶º‡¶æ", "begum rokeya", "‡¶¨‡ßá‡¶∞‡ßã‡¶¨‡¶ø", "brur", "[‡¶¨‡ßá‡¶∞‡ßã‡¶¨‡¶ø brur]"], []⟩),
  ("coaching", ⟨["udvash", "‡¶â‡¶¶‡ßç‡¶≠‡¶æ‡¶∏", "unmesh", "‡¶â‡¶®‡ßç‡¶Æ‡ßá‡¶∑", "uttoron", "‡¶â‡¶§‡ßç‡¶§‡¶∞‡¶£", "batch", "‡¶¨‡ßç‡¶Ø‡¶æ‡¶ö", "test exam", "online exam", "offline exam", "branch", "‡¶∂‡¶æ‡¶ñ‡¶æ", "‡¶ï‡ßã‡¶ö‡¶ø‡¶Ç", "‡¶Æ‡ßá‡¶ß‡¶æ‡¶¨‡ßÉ‡¶§‡ßç‡¶§‡¶ø", "medha britti", "medhab", "scholarship exam", "‡¶Æ‡¶°‡ßá‡¶≤ ‡¶ü‡ßá‡¶∏‡ßç‡¶ü", "model test"], []⟩)
]

/-- Number of `must_contain` markers of rule `r` present (case-folded) in
`doc` — the `match_count` of the loop bodies of both filter functions. -/
def matchCount (r : EntityFilterRule) (doc : String) : ℕ :=
  (r.must_contain.filter (fun p => containsLower doc p)).length

/-- The keep condition of `filter_documents_by_university`:
`contains_required and not contains_forbidden`. -/
def keepDoc (r : EntityFilterRule) (doc : String) : Bool :=
  (if r.must_contain.isEmpty then true else decide (0 < matchCount r doc)) &&
  !(if r.must_not_contain.isEmpty then false
    else r.must_not_contain.any (fun p => containsLower doc p))

/-- The filtering loop of `filter_documents_by_university`: walks `docs`
with index `i`, keeping `(doc, score, match_count)` for each passing doc. -/
def filterLoop (r : EntityFilterRule) (scores : List ℚ) : ℕ → List String → List (String × ℚ × ℕ)
  | _, [] => []
  | i, d :: ds =>
    (if keepDoc r d then [(d, scoreAt scores i 0, matchCount r d)] else []) ++
      filterLoop r scores (i + 1) ds

/-- Sort order of `combined.sort(key=lambda x: (x[2], x[1]), reverse=True)`:
left element may precede right iff its `(match_count, score)` key is
lexicographically ≥ (stable descending sort). -/
def filterLe (a b : String × ℚ × ℕ) : Bool :=
  decide (b.2.2 < a.2.2) || (decide (a.2.2 = b.2.2) && decide (b.2.1 ≤ a.2.1))

/-- `filter_documents_by_university(docs, scores, queried_uni, strict)`. -/
def filter_documents_by_university (docs : List String) (scores : List ℚ)
    (queried_uni : String) (strict : Bool := false) : List String × List ℚ :=
  match UNIVERSITY_FILTER_PATTERNS.lookup queried_uni with
  | none => (docs, scores)
  | some rules =>
    let kept := filterLoop rules scores 0 docs
    if kept.isEmpty then
      if strict then ([], []) else (docs, scores)
    else
      let sorted := sortD filterLe kept
      (sorted.map (fun x => x.1), sorted.map (fun x => x.2.1))

/-- The scoring loop of `strict_university_filter`: every doc, with its
score, its university `match_score`, and its original index. -/
def strictLoop (r : EntityFilterRule) (scores : List ℚ) : ℕ → List String → List (String × ℚ × ℕ × ℕ)
  | _, [] => []
  | i, d :: ds => (d, scoreAt scores i 0, matchCount r d, i) :: strictLoop r scores (i + 1) ds

/-- Sort order of `scored_docs.sort(key=lambda x: (x[2], x[1]), reverse=True)`
in `strict_university_filter` (same key as `filterLe`, on 4-tuples). -/
def strictLe (a b : String × ℚ × ℕ × ℕ) : Bool :=
  decide (b.2.2.1 < a.2.2.1) || (decide (a.2.2.1 = b.2.2.1) && decide (b.2.1 ≤ a.2.1))

/-- `strict_university_filter(docs, scores, queried_uni, min_docs)`. -/
def strict_university_filter (docs : List String) (scores : List ℚ)
    (queried_uni : String) (min_docs : ℕ := 2) : List String × List ℚ :=
  match UNIVERSITY_FILTER_PATTERNS.lookup queried_uni with
  | none => (docs, scores)
  | some rules =>
    let scored_docs := sortD strictLe (strictLoop rules scores 0 docs)
    let matched := (scored_docs.filter (fun x => decide (0 < x.2.2.1))).map
      (fun x => (x.1, x.2.1))
    if min_docs ≤ matched.length then
      (matched.map (fun x => x.1), matched.map (fun x => x.2))
    else if !matched.isEmpty then
      (matched.map (fun x => x.1), matched.map (fun x => x.2))
    else if queried_uni = "coaching" then
      ([], [])
    else
      (docs.take min_docs, scores.take min_docs)

/-- Python slicing `l[:n]` where `n` may be `None` (`l[:None] = l`). -/
def pySlice (n : Option ℕ) (l : List α) : List α :=
  match n with
  | none => l
  | some k => l.take k

/-- Strip leading and trailing whitespace (Python `str.strip()`). -/
def stripWs (cs : List Char) : List Char :=
  ((cs.dropWhile Char.isWhitespace).reverse.dropWhile Char.isWhitespace).reverse

/-- Accumulator-based splitter: maximal runs of characters satisfying `p`
(the accumulator holds the current run, reversed). -/
def runsAux (p : Char → Bool) : List Char → List Char → List (List Char)
  | cur, [] => if cur.isEmpty then [] else [cur.reverse]
  | cur, c :: t =>
    if p c then runsAux p (c :: cur) t
    else if cur.isEmpty then runsAux p [] t
    else cur.reverse :: runsAux p [] t

/-- Maximal runs of characters satisfying `p`, in order. -/
def runsBy (p : Char → Bool) (cs : List Char) : List (List Char) :=
  runsAux p [] cs

/-- Python `str.split()` (split on whitespace runs, dropping empties). -/
def splitWs (cs : List Char) : List (List Char) :=
  runsBy (fun c => !c.isWhitespace) cs

/-- The `unclear_patterns` regex list of `is_query_unclear` (raw pattern
strings; matching is delegated to the regex oracle). -/
def unclear_patterns : List String := ["^(eta|ata|ota|eita)\\s+(ki|k‡¶ø|‡¶ï‡¶ø)\\??$",
  "^(bolo|bolen|bol‡•ã|‡¶¨‡¶≤‡ßã|‡¶¨‡¶≤‡ßá‡¶®)\\s*$",
  "^(janao|jan‡¶æo|‡¶ú‡¶æ‡¶®‡¶æ‡¶ì)\\s*$",
  "^(ki|‡¶ï‡¶ø)\\s+(hobe|h‡¶¨‡ßá|‡¶π‡¶¨‡ßá)\\??$",
  "^(kŸÖn|kemon|‡¶ï‡ßá‡¶Æ‡¶®)\\s*\\??$",
  "^(ar|‡¶Ü‡¶∞)\\s+(ki|‡¶ï‡¶ø)\\??$",
  "^\\?\\s*$",
  "^(hmm|hm|umm|ah|oh)\\s*$"]

/-- The `filler_words` set of `is_query_unclear`, in source order. -/
def filler_words : List String := ["eta", "ota", "ki", "‡¶ï‡¶ø", "ta", "‡¶ü‡¶æ", "gula", "‡¶ó‡ßÅ‡¶≤‡¶æ", "ar", "‡¶Ü‡¶∞", "o", "‡¶ì"]

/-- `is_query_unclear(query)` with the `re.match` calls delegated to the
oracle `reMatch` (pattern, haystack ↦ whether the regex matches). -/
def is_query_unclear (reMatch : String → String → Bool) (query : String) : Bool :=
  let query_lower := stripWs (lowerChars query)
  let words := splitWs query_lower
  if words.length < 3 then true
  else if unclear_patterns.any (fun p => reMatch p (String.mk query_lower)) then true
  else
    let meaningful := words.filter
      (fun w => !(filler_words.contains (String.mk w)) && decide (2 < w.length))
    if meaningful.length < 2 then true
    else false

/-- The `strong_coaching_patterns` regex list of `ask_question` (the same
list appears in `get_queried_university`); raw pattern strings. -/
def strong_coaching_patterns : List String := ["\\budvash\\b",
  "‡¶â‡¶¶‡ßç‡¶≠‡¶æ‡¶∏",
  "\\bunmesh\\b",
  "‡¶â‡¶®‡ßç‡¶Æ‡ßá‡¶∑",
  "\\buttoron\\b",
  "‡¶â‡¶§‡ßç‡¶§‡¶∞‡¶£",
  "medha.?britti",
  "medhab",
  "‡¶Æ‡ßá‡¶ß‡¶æ‡¶¨‡ßÉ‡¶§‡ßç‡¶§‡¶ø",
  "‡¶ï‡ßã‡¶ö‡¶ø‡¶Ç",
  "coaching",
  "model.?test",
  "‡¶Æ‡¶°‡ßá‡¶≤.?‡¶ü‡ßá‡¶∏‡ßç‡¶ü"]

/-- The canned `coaching_not_found` Bengali answer of `ask_question`. -/
def coaching_not_found : String := "‡¶ï‡ßã‡¶®‡ßã ‡¶®‡¶ø‡¶∞‡ßç‡¶¶‡¶ø‡¶∑‡ßç‡¶ü ‡¶§‡¶•‡ßç‡¶Ø ‡¶¨‡¶∞‡ßç‡¶§‡¶Æ‡¶æ‡¶®‡ßá ‡¶Ü‡¶Æ‡¶æ‡¶∞ ‡¶ï‡¶æ‡¶õ‡ßá ‡¶®‡ßá‡¶á‡•§ ‡¶â‡¶¶‡ßç‡¶≠‡¶æ‡¶∏-‡¶è‡¶∞ ‡¶∞‡ßÅ‡¶ü‡¶ø‡¶® ‡¶¨‡¶æ ‡¶ï‡ßã‡¶∞‡ßç‡¶∏ ‡¶∏‡¶Æ‡ßç‡¶™‡¶∞‡ßç‡¶ï‡¶ø‡¶§ ‡¶Ø‡ßá‡¶ï‡ßã‡¶®‡ßã ‡¶§‡¶•‡ßç‡¶Ø‡ßá‡¶∞ ‡¶ú‡¶®‡ßç‡¶Ø ‡¶Ö‡¶®‡ßÅ‡¶ó‡ßç‡¶∞‡¶π ‡¶ï‡¶∞‡ßá [https://udvash.com/HomePage](https://udvash.com/HomePage) ‡¶ì‡¶Ø‡¶º‡ßá‡¶¨‡¶∏‡¶æ‡¶á‡¶ü‡¶ü‡¶ø ‡¶¶‡ßá‡¶ñ‡ßÅ‡¶® ‡¶Ö‡¶•‡¶¨‡¶æ ‡¶â‡¶¶‡ßç‡¶≠‡¶æ‡¶∏ ‡¶Ö‡¶´‡¶ø‡¶∏‡ßá ‡¶Ø‡ßã‡¶ó‡¶æ‡¶Ø‡ßã‡¶ó ‡¶ï‡¶∞‡ßÅ‡¶®‡•§"

/-- A reference returned by `/ask`: passage content and display score. -/
structure Reference where
  content : String
  score : ℚ
deriving DecidableEq, Repr

/-- The `/ask` response envelope (`AnswerResponse`). -/
structure AnswerResponse where
  question : String
  answer : String
  references : List Reference
deriving DecidableEq, Repr

/-- `doc[:1500] + "..." if len(doc) > 1500 else doc` — the reference
content truncation used on both answer paths. -/
def truncContent (doc : String) : String :=
  if 1500 < doc.data.length then String.mk (doc.data.take 1500 ++ "...".data) else doc

/-- `MIN_REFERENCE_SCORE = 0.4` of the single-entity reference loop. -/
def MIN_REFERENCE_SCORE : ℚ := mkRat 2 5

/-- The single-entity reference loop
(`for i, doc in enumerate(docs[:5]): ... if score >= MIN_REFERENCE_SCORE`),
as index-tracking recursion over the (already truncated) doc list. -/
def buildRefsAux (scores : List ℚ) : ℕ → List String → List Reference
  | _, [] => []
  | i, d :: ds =>
    (if MIN_REFERENCE_SCORE ≤ scoreAt scores i 0
     then [⟨truncContent d, scoreAt scores i 0⟩] else []) ++ buildRefsAux scores (i + 1) ds

/-- Reference assembly of the single-entity `/ask` path, from the final
(filtered) docs and scores of the query solution. -/
def singleEntityReferences (docs : List String) (scores : List ℚ) : List Reference :=
  buildRefsAux scores 0 (docs.take 5)

/-- The multi-entity collection loop: top 3 docs per entity, each paired
with `data['scores'][i] if i < len(data['scores']) else 0.5`.
`entity_results` is the (insertion-ordered) entity→result map. -/
def collectEntityDocs (entity_results : List (String × List String × List ℚ)) : List (String × ℚ) :=
  entity_results.foldl
    (fun acc er => acc ++ ((er.2.1.take 3).enum.map
      (fun p => (p.2, er.2.2.getD p.1 (mkRat 1 2))))) []

/-- Reference assembly of the multi-entity `/ask` path: first 10 collected
docs, content truncated, score displayed as `max(score, 0.5)`.
(`all_docs` and `all_scores` are built in lockstep in the source, so the
pairing in `collectEntityDocs` is exact.) -/
def multiEntityReferences (entity_results : List (String × List String × List ℚ)) : List Reference :=
  ((collectEntityDocs entity_results).take 10).map
    (fun p => ⟨truncContent p.1, max p.2 (mkRat 1 2)⟩)

/-- External systems the `/ask` handler can invoke, for the event trace. -/
inductive AskEvent where
  | rewriteLLM
  | entityDetect
  | retrieval
  | answerLLM
deriving DecidableEq, Repr

/-- Oracles for the `/ask` handler prefix: the regex library (`re.match`
for the clarity check, `re.search` for the coaching check), the rewrite
LLM, and the remainder of the handler from entity detection onwards
(returning its response and the events it generates). -/
structure AskOracles where
  reMatch : String → String → Bool
  reSearch : String → String → Bool
  rewriteLLM : String → String
  rest : String → AnswerResponse × List AskEvent

/-- The working question after STEP 0: rewritten iff the clarity check
flags the original as unclear. -/
def workingQuestion (o : AskOracles) (question : String) : String :=
  if is_query_unclear o.reMatch question then o.rewriteLLM question else question

/-- The `/ask` handler prefix (STEP 0 clarity check and rewrite, the early
coaching check, then entity detection and the rest of the pipeline),
returning the response and the trace of external invocations. -/
def askPrefix (o : AskOracles) (question : String) : AnswerResponse × List AskEvent :=
  let working := workingQuestion o question
  let rewriteEvents : List AskEvent :=
    if is_query_unclear o.reMatch question then [AskEvent.rewriteLLM] else []
  let query_lower := String.mk (lowerChars working)
  if strong_coaching_patterns.any (fun p => o.reSearch p query_lower) then
    ({question := question, answer := coaching_not_found, references := []}, rewriteEvents)
  else
    let tail := o.rest working
    (tail.1, rewriteEvents ++ AskEvent.entityDetect :: tail.2)

/-- Metadata of `DSPyFilter.rerank` (`confidence` is always `None` in the
source, so only the optional `fallback` key is modelled). -/
structure RerankMeta where
  fallback : Bool
deriving DecidableEq, Repr

/-- `DSPyFilter.rerank` after the LLM call and parse: `generated_facts` is
the parsed filter output; `closest` models the `difflib.get_close_matches`
+ `candidate_items.index` resolution of a generated fact to a candidate
index (`none` when the `index`/`eval` step raises and the fact is skipped). -/
def rerank (closest : List String → Option ℕ)
    (generated_facts : List (List String))
    (candidate_items : List (List String)) (candidate_indices : List ℕ)
    (len_after_rerank : Option ℕ) : List ℕ × List (List String) × RerankMeta :=
  if generated_facts.length = 0 ∧ 0 < candidate_items.length then
    (pySlice len_after_rerank candidate_indices, pySlice len_after_rerank candidate_items,
      ⟨true⟩)
  else
    let result_indices := generated_facts.filterMap closest
    (pySlice len_after_rerank (result_indices.map (fun i => candidate_indices.getD i 0)),
     pySlice len_after_rerank (result_indices.map (fun i => candidate_items.getD i [])),
     ⟨false⟩)

/-- Python's Unicode `\w` class, approximately: ASCII alphanumerics and
underscore, with all non-ASCII code points treated as word characters
(Bengali letters are word characters in Python; the over-approximation on
non-ASCII punctuation is irrelevant to every theorem below). -/
def isWordChar (c : Char) : Bool :=
  c.isAlphanum || c = '_' || decide (127 < c.val.toNat)

/-- `BM25Retriever.tokenize`: lowercase, then `re.findall(r'\b\w+\b', ...)`
= maximal runs of word characters. -/
def bm25Tokenize (text : String) : List String :=
  (runsBy isWordChar (lowerChars text)).map String.mk

/-- Maximum of a list of rationals (`scores.max()`; the default only
applies to an empty score vector, which numpy would reject). -/
def listMax (l : List ℚ) : ℚ := l.foldl max (l.headD 0)

/-- Minimum of a list of rationals (`scores.min()`). -/
def listMin (l : List ℚ) : ℚ := l.foldl min (l.headD 0)

/-- Min-max normalization of the BM25 score vector:
`(scores - min) / (max - min)` when `max > min`, else all zeros. -/
def minmaxNormalize (s : List ℚ) : List ℚ :=
  if listMin s < listMax s then
    s.map (fun x => (x - listMin s) / (listMax s - listMin s))
  else
    s.map (fun _ => 0)

/-- `np.argsort(scores)[::-1]`: ascending argsort (modelled stable),
reversed. -/
def argsortDesc (s : List ℚ) : List ℕ :=
  ((sortD (fun a b => decide (a.2 ≤ b.2)) s.enum).map (fun p => p.1)).reverse

/-- `BM25Retriever` state: the optional BM25Okapi engine (abstracted to its
`get_scores` function over the tokenized query), plus the indexed corpus. -/
structure BM25Retriever where
  save_path : Option String
  bm25 : Option (List String → List ℚ)
  documents : List String
  tokenized_docs : List (List String)

/-- `BM25Retriever.search(query, top_k)`. The final `if top_k:` follows
Python truthiness: both `None` and `0` skip the truncation. -/
def BM25Retriever.search (r : BM25Retriever) (query : String) (top_k : Option ℕ) :
    List ℕ × List ℚ :=
  match r.bm25 with
  | none => ([], [])
  | some get_scores =>
    let scores := minmaxNormalize (get_scores (bm25Tokenize query))
    let sorted_ids := argsortDesc scores
    let sorted_scores := sorted_ids.map (fun i => scores.getD i 0)
    match top_k with
    | some k => if k ≠ 0 then (sorted_ids.take k, sorted_scores.take k)
                else (sorted_ids, sorted_scores)
    | none => (sorted_ids, sorted_scores)

/-- An element of a ranked list fed to `reciprocal_rank_fusion`: the
`(doc_id, doc_content, original_score)` tuples every call site passes. -/
structure RRFItem where
  docId : String
  content : String
  score : ℚ
deriving DecidableEq, Repr

/-- One iteration of the RRF accumulation loop: `doc_scores[content] +=
contrib` and `doc_best_original[content] = max(best, oscore)`, with a fresh
entry initialized to `(0.0, 0.0)` first — the state is the insertion-ordered
dict, each entry `(content, (rrf_score, best_original))`. -/
def updateState (st : List (String × ℚ × ℚ)) (c : String) (contrib oscore : ℚ) :
    List (String × ℚ × ℚ) :=
  match st with
  | [] => [(c, contrib, max 0 oscore)]
  | (d, s, b) :: t =>
    if d = c then (d, s + contrib, max b oscore) :: t
    else (d, s, b) :: updateState t c contrib oscore

/-- The inner loop of `reciprocal_rank_fusion` over one ranked list, with
`rank` starting at 1 (`enumerate(ranked_list, start=1)`); the contribution
of each item is `1.0 / (k + rank)`. -/
def processItems (k : ℚ) : List (String × ℚ × ℚ) → ℕ → List RRFItem → List (String × ℚ × ℚ)
  | st, _, [] => st
  | st, rank, it :: its =>
    processItems k (updateState st it.content (1 / (k + (rank : ℚ))) it.score) (rank + 1) its

/-- The full RRF accumulation over all ranked lists. -/
def rrfState (k : ℚ) (ranked_lists : List (List RRFItem)) : List (String × ℚ × ℚ) :=
  ranked_lists.foldl (fun st l => processItems k st 1 l) []

/-- Sort order of `sorted(doc_scores.items(), key=lambda x: (x[1],
doc_best_original[x[0]]), reverse=True)`: stable descending on the
`(rrf_score, best_original)` key. -/
def rrfLe (a b : String × ℚ × ℚ) : Bool :=
  decide (b.2.1 < a.2.1) || (decide (a.2.1 = b.2.1) && decide (b.2.2 ≤ a.2.2))

/-- `reciprocal_rank_fusion(ranked_lists, k)`: accumulate, sort, and return
`(doc_content, rrf_score)` pairs. -/
def reciprocal_rank_fusion (ranked_lists : List (List RRFItem)) (k : ℚ := 60) :
    List (String × ℚ) :=
  (sortD rrfLe (rrfState k ranked_lists)).map (fun e => (e.1, e.2.1))

/-- Specification sum: total RRF contribution of every occurrence of
document `d` in one ranked list, ranks counted from `r`. -/
def occSumFrom (k : ℚ) : ℕ → List RRFItem → String → ℚ
  | _, [], _ => 0
  | r, it :: t, d =>
    (if it.content = d then 1 / (k + (r : ℚ)) else 0) + occSumFrom k (r + 1) t d

/-- Specification sum: total RRF score of document `d` over all ranked
lists (every occurrence contributes `1 / (k + its rank)`). -/
def rrfTotal (k : ℚ) : List (List RRFItem) → String → ℚ
  | [], _ => 0
  | l :: ls, d => occSumFrom k 1 l d + rrfTotal k ls d

/-- Specification fold: best original score of `d` in one list, folded
onto a starting value. -/
def bestFrom : ℚ → List RRFItem → String → ℚ
  | b, [], _ => b
  | b, it :: t, d => bestFrom (if it.content = d then max b it.score else b) t d

/-- Specification fold over all ranked lists: best original score of `d`,
starting from `b`. -/
def rrfBestFrom (b : ℚ) : List (List RRFItem) → String → ℚ
  | [], _ => b
  | l :: ls, d => rrfBestFrom (bestFrom b l d) ls d

/-- Specification value: `max(0, best original score of d in any list)`
(the accumulation initializes the best at `0.0`). -/
def rrfBest (ranked_lists : List (List RRFItem)) (d : String) : ℚ :=
  rrfBestFrom 0 ranked_lists d

/-- Whether document `d` occurs in some ranked list. -/
def occursInLists (ranked_lists : List (List RRFItem)) (d : String) : Bool :=
  ranked_lists.any (fun l => l.any (fun it => it.content = d))

/-- Dict lookup in the accumulation state. -/
def findEntry (st : List (String × ℚ × ℚ)) (d : String) : Option (ℚ × ℚ) :=
  match st with
  | [] => none
  | (c, sb) :: t => if c = d then some sb else findEntry t d

/-- The rank of `d` in a ranked list as the claim reads it: index of the
first occurrence, `1`-based. -/
def firstRank (l : List RRFItem) (d : String) : Option ℕ :=
  (l.findIdx? (fun it => it.content = d)).map (fun i => i + 1)

/-- The claim's RRF formula, literally: one term `1 / (k + rank_i(d))` per
input list containing `d`. -/
def rrfClaimScore (k : ℚ) (ranked_lists : List (List RRFItem)) (d : String) : ℚ :=
  ranked_lists.foldl
    (fun acc l => match firstRank l d with
      | none => acc
      | some r => acc + 1 / (k + (r : ℚ))) 0

/-- The claim's tie-break value, literally: the best (maximum) original
score document `d` had in any input list (no zero floor). -/
def rrfClaimBest (ranked_lists : List (List RRFItem)) (d : String) : ℚ :=
  match (ranked_lists.map (fun l => (l.filter (fun it => it.content = d)).map RRFItem.score)).flatten with
  | [] => 0
  | x :: t => t.foldl max x

/-- The claim's ordering requirement on the RRF output, literally: sorted
descending by summed score, ties broken by best original score. -/
def rrfClaimSorted (ranked_lists : List (List RRFItem)) (out : List (String × ℚ)) : Prop :=
  out.Pairwise (fun a b => b.2 < a.2 ∨ (a.2 = b.2 ∧ rrfClaimBest ranked_lists b.1 ≤ rrfClaimBest ranked_lists a.1))

/-- The filter rule registered for a university abbreviation (default: the
empty rule; used only at abbreviations present in the table). -/
def ruleOf (uni : String) : EntityFilterRule :=
  (UNIVERSITY_FILTER_PATTERNS.lookup uni).getD ⟨[], []⟩

/-- The early coaching check of `ask_question`: some strong coaching
pattern matches (via the regex oracle) the lowercased working question. -/
def coachingHit (o : AskOracles) (question : String) : Bool :=
  strong_coaching_patterns.any
    (fun p => o.reSearch p (String.mk (lowerChars (workingQuestion o question))))

/-- Concrete ranked lists for exercising `reciprocal_rank_fusion`:
document `a` (score −2) and `c` twice (scores 0) in the first list,
document `b` (score −1) alone in the second. -/
def cexRankedLists : List (List RRFItem) :=
  [[⟨"i1", "a", -2⟩, ⟨"i2", "c", 0⟩, ⟨"i3", "c", 0⟩], [⟨"i4", "b", -1⟩]]

/-!
## Theorems

First, generic facts about the stable sort `sortD` and association-list
lookup, shared by several claims.
-/

theorem insertD_perm (le : α → α → Bool) (a : α) (l : List α) :
    List.Perm (insertD le a l) (a :: l) := by
  induction l with
  | nil => exact List.Perm.refl _
  | cons b t ih =>
    unfold insertD
    by_cases h : le a b
    · rw [if_pos h]
    · rw [if_neg h]
      exact (ih.cons b).trans (List.Perm.swap a b t)

theorem sortD_perm (le : α → α → Bool) (l : List α) : List.Perm (sortD le l) l := by
  induction l with
  | nil => exact List.Perm.refl _
  | cons a t ih => exact (insertD_perm le a (sortD le t)).trans (ih.cons a)

theorem mem_sortD (le : α → α → Bool) (l : List α) (x : α) :
    x ∈ sortD le l ↔ x ∈ l :=
  (sortD_perm le l).mem_iff

theorem insertD_pairwise (le : α → α → Bool)
    (htrans : ∀ a b c, le a b = true → le b c = true → le a c = true)
    (htot : ∀ a b, le a b = true ∨ le b a = true)
    (a : α) (l : List α) (hl : l.Pairwise (fun x y => le x y = true)) :
    (insertD le a l).Pairwise (fun x y => le x y = true) := by
  induction l with
  | nil => simp [insertD]
  | cons b t ih =>
    rcases List.pairwise_cons.mp hl with ⟨hb, ht⟩
    unfold insertD
    by_cases h : le a b
    · rw [if_pos h]
      refine List.pairwise_cons.mpr ⟨?_, hl⟩
      intro c hc
      rcases List.mem_cons.mp hc with rfl | hct
      · exact h
      · exact htrans a b c h (hb c hct)
    · have hba : le b a = true := (htot a b).resolve_left h
      rw [if_neg h]
      refine List.pairwise_cons.mpr ⟨?_, ih ht⟩
      intro c hc
      have hc' : c ∈ a :: t := (insertD_perm le a t).mem_iff.mp hc
      rcases List.mem_cons.mp hc' with rfl | hct
      · exact hba
      · exact hb c hct

theorem sortD_pairwise (le : α → α → Bool)
    (htrans : ∀ a b c, le a b = true → le b c = true → le a c = true)
    (htot : ∀ a b, le a b = true ∨ le b a = true)
    (l : List α) : (sortD le l).Pairwise (fun x y => le x y = true) := by
  induction l with
  | nil => simp [sortD]
  | cons a t ih => exact insertD_pairwise le htrans htot a (sortD le t) ih

theorem lookup_mem {α β : Type} [BEq α] [LawfulBEq α] (l : List (α × β)) (a : α) (b : β)
    (h : l.lookup a = some b) : (a, b) ∈ l := by
  induction l with
  | nil => simp [List.lookup] at h
  | cons p t ih =>
    obtain ⟨k, v⟩ := p
    rw [List.lookup] at h
    cases hka : a == k
    case true =>
      rw [hka] at h
      have hv : v = b := Option.some.inj h
      have ha : a = k := eq_of_beq hka
      subst hv
      subst ha
      exact List.mem_cons_self _ _
    case false =>
      rw [hka] at h
      exact List.mem_cons_of_mem _ (ih h)

/-- C9: for every docs/scores input and every university abbreviation that
is not a key of `UNIVERSITY_FILTER_PATTERNS`, both
`filter_documents_by_university` and `strict_university_filter` return the
input docs and scores completely unchanged (same elements, same order). -/
theorem filters_unknown_uni_unchanged (docs : List String) (scores : List ℚ)
    (uni : String) (strict : Bool) (min_docs : ℕ)
    (h : UNIVERSITY_FILTER_PATTERNS.lookup uni = none) :
    filter_documents_by_university docs scores uni strict = (docs, scores) ∧
    strict_university_filter docs scores uni min_docs = (docs, scores) := by
  unfold filter_documents_by_university strict_university_filter
  rw [h]
  exact ⟨rfl, rfl⟩

/-- Witness for C9 at the unknown abbreviation `"xyz"`. -/
theorem filters_unknown_uni_unchanged_witness :
    UNIVERSITY_FILTER_PATTERNS.lookup "xyz" = none ∧
    filter_documents_by_university ["d1", "d2"] [1, 2] "xyz" true = (["d1", "d2"], [1, 2]) ∧
    strict_university_filter ["d1", "d2"] [1, 2] "xyz" 2 = (["d1", "d2"], [1, 2]) := by
  have h : UNIVERSITY_FILTER_PATTERNS.lookup "xyz" = none := by decide
  exact ⟨h, (filters_unknown_uni_unchanged ["d1", "d2"] [1, 2] "xyz" true 2 h).1,
    (filters_unknown_uni_unchanged ["d1", "d2"] [1, 2] "xyz" true 2 h).2⟩

/-- C10: for every query string and every `top_k`, `BM25Retriever.search`
on a retriever whose index has not been initialized (`self.bm25 is None`)
returns a pair of empty arrays rather than raising an error. -/
theorem bm25_search_uninitialized (r : BM25Retriever) (query : String)
    (top_k : Option ℕ) (h : r.bm25 = none) :
    r.search query top_k = ([], []) := by
  unfold BM25Retriever.search
  rw [h]

/-- Witness for C10 on a concrete uninitialized retriever. -/
theorem bm25_search_uninitialized_witness :
    (BM25Retriever.mk none none [] []).bm25 = none ∧
    (BM25Retriever.mk none none [] []).search "any query" (some 5) = ([], []) :=
  ⟨rfl, bm25_search_uninitialized (BM25Retriever.mk none none [] []) "any query" (some 5) rfl⟩

/-- C7: for every query and non-empty candidate fact list, when the LLM
filter's parsed output contains zero facts, `DSPyFilter.rerank` returns
the original candidate indices and facts in their original order,
truncated to `len_after_rerank`, instead of an empty result. -/
theorem rerank_zero_facts_fallback (closest : List String → Option ℕ)
    (generated_facts : List (List String))
    (candidate_items : List (List String)) (candidate_indices : List ℕ)
    (len_after_rerank : Option ℕ)
    (hgf : generated_facts = []) (hci : candidate_items ≠ []) :
    rerank closest generated_facts candidate_items candidate_indices len_after_rerank =
      (pySlice len_after_rerank candidate_indices,
       pySlice len_after_rerank candidate_items, ⟨true⟩) := by
  subst hgf
  unfold rerank
  rw [if_pos ⟨rfl, List.length_pos.mpr hci⟩]

/-- Witness for C7 at a concrete candidate list. -/
theorem rerank_zero_facts_fallback_witness :
    (([["s1", "p1", "o1"], ["s2", "p2", "o2"]] : List (List String)) ≠ []) ∧
    rerank (fun _ => none) [] [["s1", "p1", "o1"], ["s2", "p2", "o2"]] [4, 9] (some 1) =
      ([4], [["s1", "p1", "o1"]], ⟨true⟩) := by
  have hne : ([["s1", "p1", "o1"], ["s2", "p2", "o2"]] : List (List String)) ≠ [] := by decide
  refine ⟨hne, ?_⟩
  rw [rerank_zero_facts_fallback (fun _ => none) [] [["s1", "p1", "o1"], ["s2", "p2", "o2"]]
    [4, 9] (some 1) rfl hne]
  decide

set_option maxRecDepth 40000 in
/-- C8: for every working query that matches one of the coaching-brand
regexes, the `/ask` controller returns the canned Bengali response
containing the URL `https://udvash.com/HomePage` with an empty references
list, and it does so before entity detection and without ever invoking
retrieval for that request. -/
theorem ask_coaching_shortcircuit (o : AskOracles) (q : String)
    (h : coachingHit o q = true) :
    (askPrefix o q).1.answer = coaching_not_found ∧
    (askPrefix o q).1.references = [] ∧
    AskEvent.entityDetect ∉ (askPrefix o q).2 ∧
    AskEvent.retrieval ∉ (askPrefix o q).2 ∧
    containsSub coaching_not_found "https://udvash.com/HomePage" = true := by
  have hc : strong_coaching_patterns.any
      (fun p => o.reSearch p (String.mk (lowerChars (workingQuestion o q)))) = true := h
  unfold askPrefix
  rw [if_pos hc]
  refine ⟨rfl, rfl, ?_, ?_, by decide⟩
  · by_cases hu : is_query_unclear o.reMatch q
    · rw [if_pos hu]; simp
    · rw [if_neg hu]; simp
  · by_cases hu : is_query_unclear o.reMatch q
    · rw [if_pos hu]; simp
    · rw [if_neg hu]; simp

set_option maxRecDepth 40000 in
/-- Witness for C8: a substring-based regex oracle and a query containing
the literal pattern `coaching`. -/
theorem ask_coaching_shortcircuit_witness :
    coachingHit
      (AskOracles.mk (fun _ _ => false) (fun p s => containsSub s p) (fun s => s)
        (fun _ => (⟨"", "", []⟩, [AskEvent.retrieval]))) "when is the coaching exam" = true ∧
    (askPrefix
      (AskOracles.mk (fun _ _ => false) (fun p s => containsSub s p) (fun s => s)
        (fun _ => (⟨"", "", []⟩, [AskEvent.retrieval]))) "when is the coaching exam").1.answer =
      coaching_not_found ∧
    (askPrefix
      (AskOracles.mk (fun _ _ => false) (fun p s => containsSub s p) (fun s => s)
        (fun _ => (⟨"", "", []⟩, [AskEvent.retrieval]))) "when is the coaching exam").2 = [] := by
  have h : coachingHit
      (AskOracles.mk (fun _ _ => false) (fun p s => containsSub s p) (fun s => s)
        (fun _ => (⟨"", "", []⟩, [AskEvent.retrieval]))) "when is the coaching exam" = true := by
    decide
  refine ⟨h, (ask_coaching_shortcircuit _ _ h).1, ?_⟩
  decide

theorem toLower_of_whitespace (c : Char) (h : c.isWhitespace = true) : c.toLower = c := by
  have h4 : ((c = ' ' ∨ c = '\t') ∨ c = '\x0d') ∨ c = '\n' := by
    simpa [Char.isWhitespace] using h
  rcases h4 with ((rfl | rfl) | rfl) | rfl <;> decide

theorem runsAux_nil_of (p : Char → Bool) (cs : List Char)
    (h : ∀ c ∈ cs, p c = false) : runsAux p [] cs = [] := by
  induction cs with
  | nil => simp [runsAux]
  | cons c t ih =>
    unfold runsAux
    rw [h c (List.mem_cons_self c t)]
    simp only [Bool.false_eq_true, if_false, List.isEmpty_nil, if_true]
    exact ih (fun d hd => h d (List.mem_cons_of_mem c hd))

theorem splitWs_nil_of (cs : List Char)
    (h : ∀ c ∈ cs, c.isWhitespace = true) : splitWs cs = [] := by
  unfold splitWs runsBy
  exact runsAux_nil_of _ cs (by intro c hc; simp [h c hc])

theorem mem_stripWs (cs : List Char) (c : Char) (h : c ∈ stripWs cs) : c ∈ cs := by
  unfold stripWs at h
  rw [List.mem_reverse] at h
  have h1 := (List.dropWhile_sublist (l := (cs.dropWhile Char.isWhitespace).reverse)
    (p := Char.isWhitespace)).mem h
  rw [List.mem_reverse] at h1
  exact (List.dropWhile_sublist (p := Char.isWhitespace)).mem h1

theorem is_query_unclear_of_whitespace (reMatch : String → String → Bool) (q : String)
    (h : q.data.all Char.isWhitespace = true) : is_query_unclear reMatch q = true := by
  have hws : ∀ c ∈ stripWs (lowerChars q), c.isWhitespace = true := by
    intro c hc
    have hc' := mem_stripWs _ c hc
    unfold lowerChars at hc'
    rcases List.mem_map.mp hc' with ⟨c0, hc0, rfl⟩
    have h0 : c0.isWhitespace = true := List.all_eq_true.mp h c0 hc0
    rw [toLower_of_whitespace c0 h0]
    exact h0
  have hw : splitWs (stripWs (lowerChars q)) = [] := splitWs_nil_of _ hws
  unfold is_query_unclear
  simp [hw]

/-- Counterexample to C4: at the empty query, the controller does not
reject; it classifies the query as unclear, invokes the rewrite LLM, and
proceeds into the pipeline (the trace even reaches retrieval). -/
theorem ask_empty_query_counterexample :
    AskEvent.rewriteLLM ∈ (askPrefix (AskOracles.mk (fun _ _ => false) (fun _ _ => false)
      (fun s => s) (fun _ => (⟨"", "", []⟩, [AskEvent.retrieval]))) "").2 ∧
    AskEvent.retrieval ∈ (askPrefix (AskOracles.mk (fun _ _ => false) (fun _ _ => false)
      (fun s => s) (fun _ => (⟨"", "", []⟩, [AskEvent.retrieval]))) "").2 := by
  decide

/-- C4 (amended): for the empty (or whitespace-only) query, the clarity
check classifies the query as unclear, and the controller invokes the
rewrite LLM on it instead of rejecting without a model call. -/
theorem ask_empty_query_rewrites (o : AskOracles) (q : String)
    (h : q.data.all Char.isWhitespace = true) :
    is_query_unclear o.reMatch q = true ∧
    AskEvent.rewriteLLM ∈ (askPrefix o q).2 := by
  have hu := is_query_unclear_of_whitespace o.reMatch q h
  refine ⟨hu, ?_⟩
  unfold askPrefix
  simp only [hu, if_true]
  split <;> simp

/-- Witness for the amended C4 at the one-space query. -/
theorem ask_empty_query_rewrites_witness :
    (" ".data.all Char.isWhitespace = true) ∧
    (is_query_unclear (fun _ _ => false) " " = true ∧
     AskEvent.rewriteLLM ∈ (askPrefix (AskOracles.mk (fun _ _ => false) (fun _ _ => false)
       (fun s => s) (fun _ => (⟨"", "", []⟩, [AskEvent.retrieval]))) " ").2) :=
  ⟨by decide, ask_empty_query_rewrites (AskOracles.mk (fun _ _ => false) (fun _ _ => false)
    (fun s => s) (fun _ => (⟨"", "", []⟩, [AskEvent.retrieval]))) " " (by decide)⟩

theorem filter_documents_eq (docs : List String) (scores : List ℚ) (uni : String)
    (r : EntityFilterRule) (strict : Bool)
    (hr : UNIVERSITY_FILTER_PATTERNS.lookup uni = some r) :
    filter_documents_by_university docs scores uni strict =
      (if (filterLoop r scores 0 docs).isEmpty then
        (if strict then ([], []) else (docs, scores))
       else
        ((sortD filterLe (filterLoop r scores 0 docs)).map (fun x => x.1),
         (sortD filterLe (filterLoop r scores 0 docs)).map (fun x => x.2.1))) := by
  unfold filter_documents_by_university
  rw [hr]

theorem strict_filter_eq (docs : List String) (scores : List ℚ) (uni : String)
    (r : EntityFilterRule) (min_docs : ℕ)
    (hr : UNIVERSITY_FILTER_PATTERNS.lookup uni = some r) :
    strict_university_filter docs scores uni min_docs =
      (let matched := ((sortD strictLe (strictLoop r scores 0 docs)).filter
          (fun x => decide (0 < x.2.2.1))).map (fun x => (x.1, x.2.1));
       if min_docs ≤ matched.length then
         (matched.map (fun x => x.1), matched.map (fun x => x.2))
       else if !matched.isEmpty then
         (matched.map (fun x => x.1), matched.map (fun x => x.2))
       else if uni = "coaching" then ([], [])
       else (docs.take min_docs, scores.take min_docs)) := by
  unfold strict_university_filter
  rw [hr]

theorem filterLoop_mem (r : EntityFilterRule) (scores : List ℚ) :
    ∀ (i : ℕ) (docs : List String) (e : String × ℚ × ℕ),
      e ∈ filterLoop r scores i docs → keepDoc r e.1 = true ∧ e.1 ∈ docs := by
  intro i docs
  induction docs generalizing i with
  | nil => intro e he; simp [filterLoop] at he
  | cons d ds ih =>
    intro e he
    unfold filterLoop at he
    rcases List.mem_append.mp he with h1 | h2
    · by_cases hk : keepDoc r d
      · rw [if_pos hk] at h1
        rcases List.mem_singleton.mp h1 with rfl
        exact ⟨hk, List.mem_cons_self _ _⟩
      · rw [if_neg hk] at h1
        cases h1
    · rcases ih (i + 1) e h2 with ⟨hk, hm⟩
      exact ⟨hk, List.mem_cons_of_mem _ hm⟩

theorem filterLoop_exists (r : EntityFilterRule) (scores : List ℚ) :
    ∀ (i : ℕ) (docs : List String) (d : String),
      d ∈ docs → keepDoc r d = true →
      ∃ e ∈ filterLoop r scores i docs, e.1 = d := by
  intro i docs
  induction docs generalizing i with
  | nil => intro d hd; cases hd
  | cons d0 ds ih =>
    intro d hd hk
    unfold filterLoop
    rcases List.mem_cons.mp hd with rfl | hds
    · refine ⟨(d, scoreAt scores i 0, matchCount r d), ?_, rfl⟩
      rw [if_pos hk]
      exact List.mem_append.mpr (Or.inl (List.mem_singleton.mpr rfl))
    · rcases ih (i + 1) d hds hk with ⟨e, he, hed⟩
      exact ⟨e, List.mem_append.mpr (Or.inr he), hed⟩

theorem strictLoop_mem (r : EntityFilterRule) (scores : List ℚ) :
    ∀ (i : ℕ) (docs : List String) (e : String × ℚ × ℕ × ℕ),
      e ∈ strictLoop r scores i docs → e.1 ∈ docs ∧ e.2.2.1 = matchCount r e.1 := by
  intro i docs
  induction docs generalizing i with
  | nil => intro e he; simp [strictLoop] at he
  | cons d ds ih =>
    intro e he
    unfold strictLoop at he
    rcases List.mem_cons.mp he with rfl | h2
    · exact ⟨List.mem_cons_self _ _, rfl⟩
    · rcases ih (i + 1) e h2 with ⟨hm, hc⟩
      exact ⟨List.mem_cons_of_mem _ hm, hc⟩

theorem strictLoop_exists (r : EntityFilterRule) (scores : List ℚ) :
    ∀ (i : ℕ) (docs : List String) (d : String),
      d ∈ docs →
      ∃ e ∈ strictLoop r scores i docs, e.1 = d ∧ e.2.2.1 = matchCount r d := by
  intro i docs
  induction docs generalizing i with
  | nil => intro d hd; cases hd
  | cons d0 ds ih =>
    intro d hd
    unfold strictLoop
    rcases List.mem_cons.mp hd with rfl | hds
    · exact ⟨(d, scoreAt scores i 0, matchCount r d, i), List.mem_cons_self _ _, rfl, rfl⟩
    · rcases ih (i + 1) d hds with ⟨e, he, hed⟩
      exact ⟨e, List.mem_cons_of_mem _ he, hed⟩

theorem matchCount_pos_exists (r : EntityFilterRule) (d : String)
    (h : 0 < matchCount r d) : ∃ m ∈ r.must_contain, containsLower d m = true := by
  unfold matchCount at h
  rcases List.exists_mem_of_ne_nil _ (List.length_pos.mp h) with ⟨m, hm⟩
  rcases List.mem_filter.mp hm with ⟨hm1, hm2⟩
  exact ⟨m, hm1, hm2⟩

theorem keepDoc_props (r : EntityFilterRule) (d : String)
    (hk : keepDoc r d = true) (hmc : r.must_contain ≠ []) :
    (∃ m ∈ r.must_contain, containsLower d m = true) ∧
    (∀ m ∈ r.must_not_contain, containsLower d m = false) := by
  unfold keepDoc at hk
  rw [Bool.and_eq_true] at hk
  obtain ⟨h1, h2⟩ := hk
  have hie : ¬ (r.must_contain.isEmpty = true) := by
    simpa [List.isEmpty_iff] using hmc
  rw [if_neg hie] at h1
  refine ⟨matchCount_pos_exists r d (of_decide_eq_true h1), ?_⟩
  intro m hm
  have h2' : (if r.must_not_contain.isEmpty = true then false
      else r.must_not_contain.any fun p => containsLower d p) = false := by
    rcases Bool.eq_false_or_eq_true (if r.must_not_contain.isEmpty = true then false
      else r.must_not_contain.any fun p => containsLower d p) with hx | hx
    · rw [hx] at h2
      exact absurd h2 (by decide)
    · exact hx
  by_cases hmn : r.must_not_contain.isEmpty = true
  · rw [List.isEmpty_iff] at hmn
    rw [hmn] at hm
    cases hm
  · rw [if_neg hmn] at h2'
    simpa using List.any_eq_false.mp h2' m hm

theorem table_must_contain_ne_nil :
    ∀ p ∈ UNIVERSITY_FILTER_PATTERNS, p.2.must_contain ≠ [] := by decide

/-- Counterexample to C1: when the non-strict filter's fallback branch
fires (no passage matches), `filter_documents_by_university` returns the
original passages, and the kept passage `"hello"` contains none of the
`jnu` rule's `must_contain` markers. -/
theorem university_filter_fallback_counterexample :
    filter_documents_by_university ["hello"] [1] "jnu" false = (["hello"], [1]) ∧
    (ruleOf "jnu").must_contain ≠ [] ∧
    (ruleOf "jnu").must_contain.all (fun m => !containsLower "hello" m) = true := by
  refine ⟨by decide, by decide, by decide⟩

/-- C1 (amended): when at least one passage passes the keep test, every
passage kept by `filter_documents_by_university` contains (case-folded)
at least one `must_contain` marker and no `must_not_contain` marker of the
rule; and when at least one passage has a positive marker count, every
passage kept by `strict_university_filter` contains at least one
`must_contain` marker (the strict filter never checks `must_not_contain`).
The fallback branches (no passage matching) are excluded: there the
functions return unfiltered input passages. -/
theorem university_filter_marker_invariant (docs : List String) (scores : List ℚ)
    (uni : String) (r : EntityFilterRule) (strict : Bool) (min_docs : ℕ)
    (hr : UNIVERSITY_FILTER_PATTERNS.lookup uni = some r) :
    ((∃ d0 ∈ docs, keepDoc r d0 = true) →
      ∀ d ∈ (filter_documents_by_university docs scores uni strict).1,
        (∃ m ∈ r.must_contain, containsLower d m = true) ∧
        (∀ m ∈ r.must_not_contain, containsLower d m = false)) ∧
    ((∃ d0 ∈ docs, 0 < matchCount r d0) →
      ∀ d ∈ (strict_university_filter docs scores uni min_docs).1,
        ∃ m ∈ r.must_contain, containsLower d m = true) := by
  have hmc : r.must_contain ≠ [] :=
    table_must_contain_ne_nil (uni, r) (lookup_mem _ uni r hr)
  constructor
  · rintro ⟨d0, hd0, hk0⟩ d hd
    rw [filter_documents_eq docs scores uni r strict hr] at hd
    by_cases hke : (filterLoop r scores 0 docs).isEmpty = true
    · exfalso
      rcases filterLoop_exists r scores 0 docs d0 hd0 hk0 with ⟨e, he, _⟩
      rw [List.isEmpty_iff.mp hke] at he
      cases he
    · rw [if_neg hke] at hd
      rcases List.mem_map.mp hd with ⟨e, he, rfl⟩
      have he' := (mem_sortD filterLe _ e).mp he
      have hk := (filterLoop_mem r scores 0 docs e he').1
      exact keepDoc_props r e.1 hk hmc
  · rintro ⟨d0, hd0, hm0⟩ d hd
    rw [strict_filter_eq docs scores uni r min_docs hr] at hd
    have hmne : ((sortD strictLe (strictLoop r scores 0 docs)).filter
        (fun x => decide (0 < x.2.2.1))).map (fun x => (x.1, x.2.1)) ≠ [] := by
      rcases strictLoop_exists r scores 0 docs d0 hd0 with ⟨e, he, _, hc⟩
      have hes : e ∈ sortD strictLe (strictLoop r scores 0 docs) :=
        (mem_sortD strictLe _ e).mpr he
      have hef : e ∈ (sortD strictLe (strictLoop r scores 0 docs)).filter
          (fun x => decide (0 < x.2.2.1)) := by
        refine List.mem_filter.mpr ⟨hes, ?_⟩
        rw [hc]
        exact decide_eq_true hm0
      intro hnil
      rw [List.map_eq_nil_iff] at hnil
      rw [hnil] at hef
      cases hef
    by_cases h1 : min_docs ≤ (((sortD strictLe (strictLoop r scores 0 docs)).filter
        (fun x => decide (0 < x.2.2.1))).map (fun x => (x.1, x.2.1))).length
    · rw [if_pos h1] at hd
      rcases List.mem_map.mp hd with ⟨q, hq, rfl⟩
      rcases List.mem_map.mp hq with ⟨e, he, rfl⟩
      rcases List.mem_filter.mp he with ⟨hes, hep⟩
      have hc := (strictLoop_mem r scores 0 docs e ((mem_sortD strictLe _ e).mp hes)).2
      have hpos : 0 < matchCount r e.1 := by
        have := of_decide_eq_true hep
        rw [hc] at this
        exact this
      exact matchCount_pos_exists r e.1 hpos
    · rw [if_neg h1, if_pos (by simpa [List.isEmpty_iff] using hmne)] at hd
      rcases List.mem_map.mp hd with ⟨q, hq, rfl⟩
      rcases List.mem_map.mp hq with ⟨e, he, rfl⟩
      rcases List.mem_filter.mp he with ⟨hes, hep⟩
      have hc := (strictLoop_mem r scores 0 docs e ((mem_sortD strictLe _ e).mp hes)).2
      have hpos : 0 < matchCount r e.1 := by
        have := of_decide_eq_true hep
        rw [hc] at this
        exact this
      exact matchCount_pos_exists r e.1 hpos

/-- Witness for the amended C1: a passage tagged with `jagannath`/`jnu`
markers passes both filters and carries the markers. -/
theorem university_filter_marker_invariant_witness :
    UNIVERSITY_FILTER_PATTERNS.lookup "jnu" = some (ruleOf "jnu") ∧
    (∃ d0 ∈ ["jagannath jnu admission", "other"], keepDoc (ruleOf "jnu") d0 = true) ∧
    (∀ d ∈ (filter_documents_by_university ["jagannath jnu admission", "other"] [1, 2] "jnu" false).1,
      (∃ m ∈ (ruleOf "jnu").must_contain, containsLower d m = true) ∧
      (∀ m ∈ (ruleOf "jnu").must_not_contain, containsLower d m = false)) := by
  have hr : UNIVERSITY_FILTER_PATTERNS.lookup "jnu" = some (ruleOf "jnu") := by decide
  refine ⟨hr, by decide, ?_⟩
  exact (university_filter_marker_invariant ["jagannath jnu admission", "other"] [1, 2]
    "jnu" (ruleOf "jnu") false 3 hr).1 (by decide)

theorem strictLoop_filter_map (r : EntityFilterRule) (scores : List ℚ) :
    ∀ (i : ℕ) (docs : List String),
      ((strictLoop r scores i docs).filter (fun x => decide (0 < x.2.2.1))).map
          (fun x => x.1) =
        docs.filter (fun d => decide (0 < matchCount r d)) := by
  intro i docs
  induction docs generalizing i with
  | nil => rfl
  | cons d ds ih =>
    unfold strictLoop
    rw [List.filter_cons, List.filter_cons]
    by_cases hm : 0 < matchCount r d
    · simp [hm, ih (i + 1)]
    · simp [hm, ih (i + 1)]

/-- Counterexample to C3: for the non-coaching abbreviation `jnu` with
zero matching passages (fewer than `min_docs`), `strict_university_filter`
does not return only the matched passages (the empty list); it returns the
first `min_docs` input passages unfiltered. -/
theorem strict_filter_zero_match_counterexample :
    strict_university_filter ["hello"] [1] "jnu" 2 = (["hello"], [1]) ∧
    matchCount (ruleOf "jnu") "hello" = 0 ∧
    UNIVERSITY_FILTER_PATTERNS.lookup "jnu" = some (ruleOf "jnu") := by
  refine ⟨by decide, by decide, by decide⟩

/-- C3 (amended): whenever at least one passage carries a matching marker,
`strict_university_filter` returns exactly the matching passages (in
particular when fewer than `min_docs` match); with zero matches it returns
empty lists for the coaching abbreviation and the first `min_docs` input
passages (unfiltered) for every other abbreviation in the table. -/
theorem strict_filter_matched_only (docs : List String) (scores : List ℚ)
    (uni : String) (r : EntityFilterRule) (min_docs : ℕ)
    (hr : UNIVERSITY_FILTER_PATTERNS.lookup uni = some r) :
    ((∃ d0 ∈ docs, 0 < matchCount r d0) →
      List.Perm (strict_university_filter docs scores uni min_docs).1
        (docs.filter (fun d => decide (0 < matchCount r d)))) ∧
    ((∀ d ∈ docs, matchCount r d = 0) → uni = "coaching" →
      strict_university_filter docs scores uni min_docs = ([], [])) ∧
    ((∀ d ∈ docs, matchCount r d = 0) → uni ≠ "coaching" →
      strict_university_filter docs scores uni min_docs =
        (docs.take min_docs, scores.take min_docs)) := by
  refine ⟨?_, ?_, ?_⟩
  · rintro ⟨d0, hd0, hm0⟩
    have hmne : ((sortD strictLe (strictLoop r scores 0 docs)).filter
        (fun x => decide (0 < x.2.2.1))).map (fun x => (x.1, x.2.1)) ≠ [] := by
      rcases strictLoop_exists r scores 0 docs d0 hd0 with ⟨e, he, _, hc⟩
      have hef : e ∈ (sortD strictLe (strictLoop r scores 0 docs)).filter
          (fun x => decide (0 < x.2.2.1)) := by
        refine List.mem_filter.mpr ⟨(mem_sortD strictLe _ e).mpr he, ?_⟩
        rw [hc]
        exact decide_eq_true hm0
      intro hnil
      rw [List.map_eq_nil_iff] at hnil
      rw [hnil] at hef
      cases hef
    have hout : (strict_university_filter docs scores uni min_docs).1 =
        (((sortD strictLe (strictLoop r scores 0 docs)).filter
          (fun x => decide (0 < x.2.2.1))).map (fun x => (x.1, x.2.1))).map
          (fun x => x.1) := by
      rw [strict_filter_eq docs scores uni r min_docs hr]
      by_cases h1 : min_docs ≤ (((sortD strictLe (strictLoop r scores 0 docs)).filter
          (fun x => decide (0 < x.2.2.1))).map (fun x => (x.1, x.2.1))).length
      · rw [if_pos h1]
      · rw [if_neg h1, if_pos (by simpa [List.isEmpty_iff] using hmne)]
    rw [hout, List.map_map]
    have hfun : ((fun x : String × ℚ => x.1) ∘ (fun x : String × ℚ × ℕ × ℕ => (x.1, x.2.1)))
        = fun x : String × ℚ × ℕ × ℕ => x.1 := rfl
    rw [hfun]
    have hperm : List.Perm
        (((sortD strictLe (strictLoop r scores 0 docs)).filter
          (fun x => decide (0 < x.2.2.1))).map (fun x => x.1))
        (((strictLoop r scores 0 docs).filter
          (fun x => decide (0 < x.2.2.1))).map (fun x => x.1)) :=
      ((sortD_perm strictLe (strictLoop r scores 0 docs)).filter _).map _
    rw [strictLoop_filter_map r scores 0 docs] at hperm
    exact hperm
  · intro hz hcoach
    have hm0 : ((sortD strictLe (strictLoop r scores 0 docs)).filter
        (fun x => decide (0 < x.2.2.1))).map (fun x => (x.1, x.2.1)) = [] := by
      rw [List.map_eq_nil_iff, List.filter_eq_nil_iff]
      intro x hx
      have h1 := strictLoop_mem r scores 0 docs x ((mem_sortD strictLe _ x).mp hx)
      rw [h1.2, hz x.1 h1.1]
      simp
    rw [strict_filter_eq docs scores uni r min_docs hr]
    simp only [hm0, List.length_nil, List.map_nil, List.isEmpty_nil, Bool.not_true]
    rcases Nat.eq_zero_or_pos min_docs with hmd | hmd
    · subst hmd
      simp
    · have hnle : ¬ (min_docs ≤ 0) := by omega
      simp [hnle, hcoach]
  · intro hz hcoach
    have hm0 : ((sortD strictLe (strictLoop r scores 0 docs)).filter
        (fun x => decide (0 < x.2.2.1))).map (fun x => (x.1, x.2.1)) = [] := by
      rw [List.map_eq_nil_iff, List.filter_eq_nil_iff]
      intro x hx
      have h1 := strictLoop_mem r scores 0 docs x ((mem_sortD strictLe _ x).mp hx)
      rw [h1.2, hz x.1 h1.1]
      simp
    rw [strict_filter_eq docs scores uni r min_docs hr]
    simp only [hm0, List.length_nil, List.map_nil, List.isEmpty_nil, Bool.not_true]
    rcases Nat.eq_zero_or_pos min_docs with hmd | hmd
    · subst hmd
      simp
    · have hnle : ¬ (min_docs ≤ 0) := by omega
      simp [hnle, hcoach]

/-- Witness for the amended C3: one `ku`-tagged passage among two, below
`min_docs = 3`; only the tagged passage is returned. -/
theorem strict_filter_matched_only_witness :
    UNIVERSITY_FILTER_PATTERNS.lookup "ku" = some (ruleOf "ku") ∧
    (∃ d0 ∈ ["khulna university circular", "other doc"], 0 < matchCount (ruleOf "ku") d0) ∧
    List.Perm
      (strict_university_filter ["khulna university circular", "other doc"] [1, 2] "ku" 3).1
      (["khulna university circular", "other doc"].filter
        (fun d => decide (0 < matchCount (ruleOf "ku") d))) := by
  have hr : UNIVERSITY_FILTER_PATTERNS.lookup "ku" = some (ruleOf "ku") := by decide
  refine ⟨hr, by decide, ?_⟩
  exact (strict_filter_matched_only ["khulna university circular", "other doc"] [1, 2]
    "ku" (ruleOf "ku") 3 hr).1 (by decide)

theorem scoreAt_mono (scores : List ℚ)
    (hs : scores.Pairwise (fun a b => b ≤ a)) (hnn : ∀ x ∈ scores, 0 ≤ x) :
    ∀ i j, i ≤ j → scoreAt scores j 0 ≤ scoreAt scores i 0 := by
  intro i j hij
  by_cases hj : j < scores.length
  · have hi : i < scores.length := lt_of_le_of_lt hij hj
    unfold scoreAt
    rw [List.getD_eq_getElem scores 0 hj, List.getD_eq_getElem scores 0 hi]
    rcases Nat.lt_or_ge i j with hlt | hge
    · exact (List.pairwise_iff_getElem.mp hs) i j hi hj hlt
    · have : i = j := Nat.le_antisymm hij hge
      subst this
      exact le_refl _
  · have hj' : scores.length ≤ j := Nat.le_of_not_lt hj
    unfold scoreAt
    rw [List.getD_eq_default scores 0 hj']
    by_cases hi : i < scores.length
    · rw [List.getD_eq_getElem scores 0 hi]
      exact hnn _ (List.getElem_mem hi)
    · rw [List.getD_eq_default scores 0 (Nat.le_of_not_lt hi)]

theorem buildRefsAux_mem (scores : List ℚ) :
    ∀ (i : ℕ) (ds : List String) (ref : Reference), ref ∈ buildRefsAux scores i ds →
      (∃ k, i ≤ k ∧ ref.score = scoreAt scores k 0) ∧
      (∃ d ∈ ds, ref.content = truncContent d) := by
  intro i ds
  induction ds generalizing i with
  | nil => intro ref h; simp [buildRefsAux] at h
  | cons d t ih =>
    intro ref h
    unfold buildRefsAux at h
    rcases List.mem_append.mp h with h1 | h2
    · by_cases hc : MIN_REFERENCE_SCORE ≤ scoreAt scores i 0
      · rw [if_pos hc] at h1
        rcases List.mem_singleton.mp h1 with rfl
        exact ⟨⟨i, le_refl i, rfl⟩, d, List.mem_cons_self _ _, rfl⟩
      · rw [if_neg hc] at h1
        cases h1
    · rcases ih (i + 1) ref h2 with ⟨⟨k, hk, hsc⟩, ⟨d0, hd0, hct⟩⟩
      exact ⟨⟨k, Nat.le_of_succ_le hk, hsc⟩, d0, List.mem_cons_of_mem _ hd0, hct⟩

theorem buildRefsAux_pairwise (scores : List ℚ)
    (hmono : ∀ i j, i ≤ j → scoreAt scores j 0 ≤ scoreAt scores i 0) :
    ∀ (i : ℕ) (ds : List String),
      (buildRefsAux scores i ds).Pairwise (fun a b => b.score ≤ a.score) := by
  intro i ds
  induction ds generalizing i with
  | nil => simp [buildRefsAux]
  | cons d t ih =>
    unfold buildRefsAux
    by_cases hc : MIN_REFERENCE_SCORE ≤ scoreAt scores i 0
    · rw [if_pos hc, List.singleton_append]
      refine List.pairwise_cons.mpr ⟨?_, ih (i + 1)⟩
      intro b hb
      rcases (buildRefsAux_mem scores (i + 1) t b hb).1 with ⟨k, hk, hsc⟩
      rw [hsc]
      exact hmono i k (Nat.le_of_succ_le hk)
    · rw [if_neg hc, List.nil_append]
      exact ih (i + 1)

/-- Counterexample to C2: on the single-entity path, the strict university
filter reorders docs by marker-match count before reference assembly, so
the returned references are not sorted by score (here `[1/2, 9/10]`). -/
theorem references_sorted_counterexample :
    (singleEntityReferences
      (strict_university_filter ["jagannath jnu admission", "jnu circular"]
        [mkRat 1 2, mkRat 9 10] "jnu" 3).1
      (strict_university_filter ["jagannath jnu admission", "jnu circular"]
        [mkRat 1 2, mkRat 9 10] "jnu" 3).2).map Reference.score = [mkRat 1 2, mkRat 9 10] ∧
    ¬ ((singleEntityReferences
      (strict_university_filter ["jagannath jnu admission", "jnu circular"]
        [mkRat 1 2, mkRat 9 10] "jnu" 3).1
      (strict_university_filter ["jagannath jnu admission", "jnu circular"]
        [mkRat 1 2, mkRat 9 10] "jnu" 3).2).Pairwise (fun a b => b.score ≤ a.score)) := by
  refine ⟨by decide, ?_⟩
  decide

/-- C2 (amended): reference assembly preserves score order — whenever the
document scores handed to the single-entity reference loop are already
non-increasing (and non-negative), the returned references are sorted by
non-increasing score. The endpoint-wide claim fails because
`strict_university_filter` re-orders documents by marker-match count and
the multi-entity path concatenates independent per-entity blocks. -/
theorem single_references_sorted (docs : List String) (scores : List ℚ)
    (hs : scores.Pairwise (fun a b => b ≤ a)) (hnn : ∀ x ∈ scores, 0 ≤ x) :
    (singleEntityReferences docs scores).Pairwise (fun a b => b.score ≤ a.score) := by
  unfold singleEntityReferences
  exact buildRefsAux_pairwise scores (scoreAt_mono scores hs hnn) 0 (docs.take 5)

/-- Witness for the amended C2 on concrete sorted scores. -/
theorem single_references_sorted_witness :
    (([2, 1, mkRat 1 2] : List ℚ).Pairwise (fun a b => b ≤ a)) ∧
    (∀ x ∈ ([2, 1, mkRat 1 2] : List ℚ), 0 ≤ x) ∧
    (singleEntityReferences ["d1", "d2", "d3"] [2, 1, mkRat 1 2]).Pairwise
      (fun a b => b.score ≤ a.score) := by
  refine ⟨by decide, by decide, ?_⟩
  exact single_references_sorted ["d1", "d2", "d3"] [2, 1, mkRat 1 2] (by decide) (by decide)

theorem truncContent_length (d : String) : (truncContent d).data.length ≤ 1503 := by
  unfold truncContent
  by_cases h : 1500 < d.data.length
  · rw [if_pos h]
    show (d.data.take 1500 ++ "...".data).length ≤ 1503
    rw [List.length_append, List.length_take]
    have hdot : ("...".data).length = 3 := rfl
    have hmin : min 1500 d.data.length ≤ 1500 := Nat.min_le_left _ _
    omega
  · rw [if_neg h]
    omega

theorem buildRefsAux_length (scores : List ℚ) :
    ∀ (i : ℕ) (ds : List String), (buildRefsAux scores i ds).length ≤ ds.length := by
  intro i ds
  induction ds generalizing i with
  | nil => simp [buildRefsAux]
  | cons d t ih =>
    unfold buildRefsAux
    rw [List.length_append, List.length_cons]
    have h2 := ih (i + 1)
    by_cases hc : MIN_REFERENCE_SCORE ≤ scoreAt scores i 0
    · rw [if_pos hc]
      have h1 : ([(⟨truncContent d, scoreAt scores i 0⟩ : Reference)]).length = 1 := rfl
      omega
    · rw [if_neg hc]
      have h1 : ([] : List Reference).length = 0 := rfl
      omega

set_option maxRecDepth 100000 in
/-- Counterexample to C5: a 1,501-character passage is truncated to
`doc[:1500] + "..."`, a content of 1,503 characters — more than the
claimed 1,500. -/
theorem reference_content_length_counterexample :
    ((singleEntityReferences [String.mk (List.replicate 1501 'a')] [1]).map
      (fun r => r.content.data.length)) = [1503] ∧
    ¬ (∀ r ∈ singleEntityReferences [String.mk (List.replicate 1501 'a')] [1],
        r.content.data.length ≤ 1500) := by
  refine ⟨by decide, by decide⟩

/-- C5 (amended): on both paths at most 10 references are returned
(at most 5 on the single-entity path), and every reference content is at
most 1,503 characters (1,500 characters of the passage plus the 3-character
ellipsis appended when truncation occurs). -/
theorem references_bounds (docs : List String) (scores : List ℚ)
    (entity_results : List (String × List String × List ℚ)) :
    (singleEntityReferences docs scores).length ≤ 10 ∧
    (∀ r ∈ singleEntityReferences docs scores, r.content.data.length ≤ 1503) ∧
    (multiEntityReferences entity_results).length ≤ 10 ∧
    (∀ r ∈ multiEntityReferences entity_results, r.content.data.length ≤ 1503) := by
  refine ⟨?_, ?_, ?_, ?_⟩
  · have h1 := buildRefsAux_length scores 0 (docs.take 5)
    have h2 : (docs.take 5).length ≤ 5 := by
      rw [List.length_take]
      exact Nat.min_le_left _ _
    unfold singleEntityReferences
    omega
  · intro r hr
    rcases (buildRefsAux_mem scores 0 (docs.take 5) r hr).2 with ⟨d, _, hct⟩
    rw [hct]
    exact truncContent_length d
  · unfold multiEntityReferences
    rw [List.length_map, List.length_take]
    exact Nat.min_le_left _ _
  · intro r hr
    unfold multiEntityReferences at hr
    rcases List.mem_map.mp hr with ⟨p, _, rfl⟩
    exact truncContent_length p.1

theorem findEntry_updateState (st : List (String × ℚ × ℚ)) (c : String)
    (contrib o : ℚ) (d : String) :
    findEntry (updateState st c contrib o) d =
      if d = c then
        match findEntry st d with
        | some (s, b) => some (s + contrib, max b o)
        | none => some (contrib, max 0 o)
      else findEntry st d := by
  induction st with
  | nil =>
    simp only [updateState, findEntry]
    by_cases hd : d = c
    · subst hd
      simp
    · simp [hd, Ne.symm hd]
  | cons e t ih =>
    obtain ⟨e1, e2, e3⟩ := e
    simp only [updateState]
    by_cases h1 : e1 = c
    · subst h1
      simp only [if_pos rfl, findEntry]
      by_cases hd : d = e1
      · subst hd
        simp
      · simp [hd, Ne.symm hd]
    · rw [if_neg h1]
      simp only [findEntry]
      by_cases h2 : e1 = d
      · subst h2
        simp [fun h : e1 = c => h1 h]
      · simp [h2, ih]

theorem occSumFrom_of_no_occ (k : ℚ) (d : String) :
    ∀ (l : List RRFItem) (r : ℕ), (l.any (fun it => it.content = d)) = false →
      occSumFrom k r l d = 0 := by
  intro l
  induction l with
  | nil => intro r _; rfl
  | cons it t ih =>
    intro r h
    rw [List.any_cons, Bool.or_eq_false_iff] at h
    unfold occSumFrom
    rw [if_neg (by simpa using h.1), ih (r + 1) h.2, add_zero]

theorem bestFrom_of_no_occ (d : String) :
    ∀ (l : List RRFItem) (b : ℚ), (l.any (fun it => it.content = d)) = false →
      bestFrom b l d = b := by
  intro l
  induction l with
  | nil => intro b _; rfl
  | cons it t ih =>
    intro b h
    rw [List.any_cons, Bool.or_eq_false_iff] at h
    unfold bestFrom
    rw [if_neg (by simpa using h.1)]
    exact ih b h.2

theorem occSumFrom_nil (k : ℚ) (r : ℕ) (d : String) : occSumFrom k r [] d = 0 := rfl

theorem occSumFrom_cons (k : ℚ) (r : ℕ) (it : RRFItem) (t : List RRFItem) (d : String) :
    occSumFrom k r (it :: t) d =
      (if it.content = d then 1 / (k + (r : ℚ)) else 0) + occSumFrom k (r + 1) t d := rfl

theorem bestFrom_nil (b : ℚ) (d : String) : bestFrom b [] d = b := rfl

theorem bestFrom_cons (b : ℚ) (it : RRFItem) (t : List RRFItem) (d : String) :
    bestFrom b (it :: t) d = bestFrom (if it.content = d then max b it.score else b) t d := rfl

theorem findEntry_processItems (k : ℚ) (d : String) :
    ∀ (its : List RRFItem) (st : List (String × ℚ × ℚ)) (rank : ℕ),
      findEntry (processItems k st rank its) d =
        match findEntry st d with
        | some (s, b) => some (s + occSumFrom k rank its d, bestFrom b its d)
        | none =>
          if its.any (fun it => it.content = d) then
            some (occSumFrom k rank its d, bestFrom 0 its d)
          else none := by
  intro its
  induction its with
  | nil =>
    intro st rank
    cases hf : findEntry st d with
    | none => simp [processItems, hf]
    | some sb =>
      obtain ⟨s, b⟩ := sb
      simp [processItems, hf, occSumFrom_nil, bestFrom_nil]
  | cons it t ih =>
    intro st rank
    show findEntry
        (processItems k (updateState st it.content (1 / (k + (rank : ℚ))) it.score) (rank + 1) t) d = _
    rw [ih _ (rank + 1), findEntry_updateState st it.content _ _ d]
    by_cases hd : d = it.content
    · have hc : it.content = d := hd.symm
      rw [if_pos hd]
      cases hf : findEntry st d with
      | some sb =>
        obtain ⟨s, b⟩ := sb
        simp [occSumFrom_cons, bestFrom_cons, hc, add_assoc]
      | none =>
        simp [occSumFrom_cons, bestFrom_cons, hc, List.any_cons]
    · have hcne : ¬ (it.content = d) := fun h => hd h.symm
      rw [if_neg hd]
      cases hf : findEntry st d with
      | some sb =>
        obtain ⟨s, b⟩ := sb
        simp [occSumFrom_cons, bestFrom_cons, hcne]
      | none =>
        simp [occSumFrom_cons, bestFrom_cons, hcne, List.any_cons]

theorem rrfTotal_nil (k : ℚ) (d : String) : rrfTotal k [] d = 0 := rfl

theorem rrfTotal_cons (k : ℚ) (l : List RRFItem) (ls : List (List RRFItem)) (d : String) :
    rrfTotal k (l :: ls) d = occSumFrom k 1 l d + rrfTotal k ls d := rfl

theorem rrfBestFrom_nil (b : ℚ) (d : String) : rrfBestFrom b [] d = b := rfl

theorem rrfBestFrom_cons (b : ℚ) (l : List RRFItem) (ls : List (List RRFItem)) (d : String) :
    rrfBestFrom b (l :: ls) d = rrfBestFrom (bestFrom b l d) ls d := rfl

theorem findEntry_rrfState (k : ℚ) (d : String) :
    ∀ (ranked_lists : List (List RRFItem)) (st : List (String × ℚ × ℚ)),
      findEntry (ranked_lists.foldl (fun st l => processItems k st 1 l) st) d =
        match findEntry st d with
        | some (s, b) => some (s + rrfTotal k ranked_lists d, rrfBestFrom b ranked_lists d)
        | none =>
          if occursInLists ranked_lists d then
            some (rrfTotal k ranked_lists d, rrfBestFrom 0 ranked_lists d)
          else none := by
  intro ranked_lists
  induction ranked_lists with
  | nil =>
    intro st
    cases hf : findEntry st d with
    | none => simp [occursInLists, hf]
    | some sb =>
      obtain ⟨s, b⟩ := sb
      simp [rrfTotal, rrfBestFrom, hf]
  | cons l ls ih =>
    intro st
    show findEntry (ls.foldl (fun st l => processItems k st 1 l) (processItems k st 1 l)) d = _
    rw [ih (processItems k st 1 l), findEntry_processItems k d l st 1]
    cases hf : findEntry st d with
    | some sb =>
      obtain ⟨s, b⟩ := sb
      simp [rrfTotal_cons, rrfBestFrom_cons, add_assoc]
    | none =>
      by_cases hany : (l.any (fun it => it.content = d)) = true
      · rw [if_pos hany]
        have hocc : occursInLists (l :: ls) d = true := by
          unfold occursInLists
          rw [List.any_cons, hany]
          rfl
        rw [hocc, if_pos rfl]
        simp [rrfTotal_cons, rrfBestFrom_cons]
      · rw [if_neg hany]
        have hb : l.any (fun it => it.content = d) = false := by
          rcases Bool.eq_false_or_eq_true (l.any (fun it => it.content = d)) with hx | hx
          · exact absurd hx hany
          · exact hx
        have hocc : occursInLists (l :: ls) d = occursInLists ls d := by
          unfold occursInLists
          rw [List.any_cons, hb, Bool.false_or]
        have hsum : rrfTotal k (l :: ls) d = rrfTotal k ls d := by
          rw [rrfTotal_cons, occSumFrom_of_no_occ k d l 1 hb, zero_add]
        have hbest : ∀ b0 : ℚ, rrfBestFrom b0 (l :: ls) d = rrfBestFrom b0 ls d := by
          intro b0
          rw [rrfBestFrom_cons, bestFrom_of_no_occ d l b0 hb]
        rw [hocc, hsum, hbest]

theorem findEntry_mem (d : String) (v : ℚ × ℚ) :
    ∀ (st : List (String × ℚ × ℚ)), findEntry st d = some v → (d, v) ∈ st := by
  intro st
  induction st with
  | nil => intro h; simp [findEntry] at h
  | cons e t ih =>
    obtain ⟨c, sb⟩ := e
    intro h
    unfold findEntry at h
    by_cases hc : c = d
    · rw [if_pos hc] at h
      subst hc
      cases h
      exact List.mem_cons_self _ _
    · rw [if_neg hc] at h
      exact List.mem_cons_of_mem _ (ih h)

theorem findEntry_none_not_mem (d : String) :
    ∀ (st : List (String × ℚ × ℚ)), findEntry st d = none → ∀ e ∈ st, e.1 ≠ d := by
  intro st
  induction st with
  | nil => intro _ e he; cases he
  | cons f t ih =>
    obtain ⟨c, sb⟩ := f
    intro h e he
    unfold findEntry at h
    by_cases hc : c = d
    · rw [if_pos hc] at h
      cases h
    · rw [if_neg hc] at h
      rcases List.mem_cons.mp he with rfl | het
      · exact hc
      · exact ih h e het

theorem findEntry_of_mem :
    ∀ (st : List (String × ℚ × ℚ)),
      (st.map (fun e => e.1)).Nodup → ∀ e ∈ st, findEntry st e.1 = some e.2 := by
  intro st
  induction st with
  | nil => intro _ e he; cases he
  | cons f t ih =>
    obtain ⟨c, sb⟩ := f
    intro hnd e he
    rw [List.map_cons, List.nodup_cons] at hnd
    unfold findEntry
    rcases List.mem_cons.mp he with rfl | het
    · rw [if_pos rfl]
    · by_cases hc : c = e.1
      · exfalso
        apply hnd.1
        rw [hc]
        exact List.mem_map.mpr ⟨e, het, rfl⟩
      · rw [if_neg hc]
        exact ih hnd.2 e het

theorem updateState_keys (c : String) (a b : ℚ) :
    ∀ (st : List (String × ℚ × ℚ)),
      (updateState st c a b).map (fun e => e.1) =
        if (findEntry st c).isSome then st.map (fun e => e.1)
        else st.map (fun e => e.1) ++ [c] := by
  intro st
  induction st with
  | nil => simp [updateState, findEntry]
  | cons f t ih =>
    obtain ⟨e1, e2, e3⟩ := f
    unfold updateState findEntry
    by_cases h1 : e1 = c
    · rw [if_pos h1, if_pos h1]
      simp
    · rw [if_neg h1, if_neg h1]
      simp only [List.map_cons]
      rw [ih]
      by_cases h2 : (findEntry t c).isSome
      · rw [if_pos h2, if_pos h2]
      · rw [if_neg h2, if_neg h2, List.cons_append]

theorem updateState_keys_nodup (c : String) (a b : ℚ)
    (st : List (String × ℚ × ℚ)) (h : ((st.map (fun e => e.1)).Nodup)) :
    ((updateState st c a b).map (fun e => e.1)).Nodup := by
  rw [updateState_keys]
  by_cases h2 : (findEntry st c).isSome
  · rw [if_pos h2]
    exact h
  · rw [if_neg h2]
    have hne : findEntry st c = none := by
      cases hf : findEntry st c with
      | none => rfl
      | some v => rw [hf] at h2; simp at h2
    have hnotmem : c ∉ st.map (fun e => e.1) := by
      intro hmem
      rcases List.mem_map.mp hmem with ⟨e, he, hec⟩
      exact findEntry_none_not_mem c st hne e he hec
    rw [List.nodup_append]
    exact ⟨h, List.nodup_singleton c, by simpa [List.disjoint_singleton] using hnotmem⟩

theorem processItems_keys_nodup (k : ℚ) :
    ∀ (its : List RRFItem) (st : List (String × ℚ × ℚ)) (rank : ℕ),
      ((st.map (fun e => e.1)).Nodup) →
      (((processItems k st rank its).map (fun e => e.1)).Nodup) := by
  intro its
  induction its with
  | nil => intro st rank h; exact h
  | cons it t ih =>
    intro st rank h
    exact ih _ (rank + 1) (updateState_keys_nodup it.content _ _ st h)

theorem rrfState_keys_nodup_aux (k : ℚ) :
    ∀ (ranked_lists : List (List RRFItem)) (st : List (String × ℚ × ℚ)),
      ((st.map (fun e => e.1)).Nodup) →
      (((ranked_lists.foldl (fun st l => processItems k st 1 l) st).map (fun e => e.1)).Nodup) := by
  intro ranked_lists
  induction ranked_lists with
  | nil => intro st h; exact h
  | cons l ls ih =>
    intro st h
    exact ih _ (processItems_keys_nodup k l st 1 h)

theorem rrfState_keys_nodup (k : ℚ) (ranked_lists : List (List RRFItem)) :
    (((rrfState k ranked_lists).map (fun e => e.1)).Nodup) :=
  rrfState_keys_nodup_aux k ranked_lists [] (by simp)

theorem rrfLe_total (a b : String × ℚ × ℚ) : rrfLe a b = true ∨ rrfLe b a = true := by
  unfold rrfLe
  simp only [Bool.or_eq_true, Bool.and_eq_true, decide_eq_true_eq]
  rcases lt_trichotomy a.2.1 b.2.1 with h | h | h
  · right
    exact Or.inl h
  · rcases le_total b.2.2 a.2.2 with h2 | h2
    · left
      exact Or.inr ⟨h, h2⟩
    · right
      exact Or.inr ⟨h.symm, h2⟩
  · left
    exact Or.inl h

theorem rrfLe_trans (a b c : String × ℚ × ℚ)
    (hab : rrfLe a b = true) (hbc : rrfLe b c = true) : rrfLe a c = true := by
  unfold rrfLe at hab hbc ⊢
  simp only [Bool.or_eq_true, Bool.and_eq_true, decide_eq_true_eq] at hab hbc ⊢
  rcases hab with h1 | ⟨he1, hb1⟩
  · rcases hbc with h2 | ⟨he2, hb2⟩
    · exact Or.inl (lt_trans h2 h1)
    · exact Or.inl (he2 ▸ h1)
  · rcases hbc with h2 | ⟨he2, hb2⟩
    · exact Or.inl (lt_of_lt_of_le h2 (le_of_eq he1.symm))
    · exact Or.inr ⟨he1.trans he2, le_trans hb2 hb1⟩

theorem rrfState_entry_spec (ranked_lists : List (List RRFItem)) :
    ∀ e ∈ rrfState 60 ranked_lists,
      e.2.1 = rrfTotal 60 ranked_lists e.1 ∧ e.2.2 = rrfBest ranked_lists e.1 := by
  intro e he
  have hf := findEntry_of_mem _ (rrfState_keys_nodup 60 ranked_lists) e he
  have hr := findEntry_rrfState 60 e.1 ranked_lists []
  have hst : rrfState 60 ranked_lists =
      ranked_lists.foldl (fun st l => processItems 60 st 1 l) [] := rfl
  rw [← hst, hf] at hr
  by_cases hocc : occursInLists ranked_lists e.1 = true
  · rw [if_pos hocc] at hr
    have := Option.some.inj hr
    unfold rrfBest
    constructor
    · exact congrArg Prod.fst this
    · exact congrArg Prod.snd this
  · rw [if_neg hocc] at hr
    cases hr

theorem rrfState_mem_iff (ranked_lists : List (List RRFItem)) (d : String) :
    (∃ e ∈ rrfState 60 ranked_lists, e.1 = d) ↔ occursInLists ranked_lists d = true := by
  have hr := findEntry_rrfState 60 d ranked_lists []
  have hst : rrfState 60 ranked_lists =
      ranked_lists.foldl (fun st l => processItems 60 st 1 l) [] := rfl
  rw [← hst] at hr
  constructor
  · rintro ⟨e, he, rfl⟩
    have hf := findEntry_of_mem _ (rrfState_keys_nodup 60 ranked_lists) e he
    rw [hf] at hr
    by_cases hocc : occursInLists ranked_lists e.1 = true
    · exact hocc
    · rw [if_neg hocc] at hr
      cases hr
  · intro hocc
    rw [if_pos hocc] at hr
    exact ⟨(d, rrfTotal 60 ranked_lists d, rrfBestFrom 0 ranked_lists d),
      findEntry_mem d _ _ hr, rfl⟩

/-- C6 (amended): `reciprocal_rank_fusion` (k = 60) assigns each returned
document the sum, over every occurrence of the document in every input
list, of `1 / (60 + rank)` with ranks starting at 1 (a document appearing
twice in one list contributes twice); the output contains exactly the
documents occurring in some input list; and it is sorted descending by
summed score with ties broken by `max(0, best original score)` (the
accumulator initializes the best-score tie-breaker at 0). -/
theorem rrf_spec (ranked_lists : List (List RRFItem)) :
    (∀ p ∈ reciprocal_rank_fusion ranked_lists 60,
      p.2 = rrfTotal 60 ranked_lists p.1) ∧
    (∀ d : String, (∃ p ∈ reciprocal_rank_fusion ranked_lists 60, p.1 = d) ↔
      occursInLists ranked_lists d = true) ∧
    (reciprocal_rank_fusion ranked_lists 60).Pairwise
      (fun a b => b.2 < a.2 ∨
        (a.2 = b.2 ∧ rrfBest ranked_lists b.1 ≤ rrfBest ranked_lists a.1)) := by
  refine ⟨?_, ?_, ?_⟩
  · intro p hp
    unfold reciprocal_rank_fusion at hp
    rcases List.mem_map.mp hp with ⟨e, he, rfl⟩
    have he' := (mem_sortD rrfLe _ e).mp he
    exact (rrfState_entry_spec ranked_lists e he').1
  · intro d
    constructor
    · rintro ⟨p, hp, rfl⟩
      unfold reciprocal_rank_fusion at hp
      rcases List.mem_map.mp hp with ⟨e, he, rfl⟩
      have he' := (mem_sortD rrfLe _ e).mp he
      exact (rrfState_mem_iff ranked_lists e.1).mp ⟨e, he', rfl⟩
    · intro hocc
      rcases (rrfState_mem_iff ranked_lists d).mpr hocc with ⟨e, he, rfl⟩
      exact ⟨(e.1, e.2.1), List.mem_map.mpr ⟨e, (mem_sortD rrfLe _ e).mpr he, rfl⟩, rfl⟩
  · unfold reciprocal_rank_fusion
    rw [List.pairwise_map]
    refine List.Pairwise.imp_of_mem ?_
      (sortD_pairwise rrfLe rrfLe_trans rrfLe_total (rrfState 60 ranked_lists))
    intro a b ha hb hab
    have ha' := rrfState_entry_spec ranked_lists a ((mem_sortD rrfLe _ a).mp ha)
    have hb' := rrfState_entry_spec ranked_lists b ((mem_sortD rrfLe _ b).mp hb)
    unfold rrfLe at hab
    simp only [Bool.or_eq_true, Bool.and_eq_true, decide_eq_true_eq] at hab
    rcases hab with h | ⟨he, hble⟩
    · exact Or.inl h
    · refine Or.inr ⟨he, ?_⟩
      rw [← ha'.2, ← hb'.2]
      exact hble

/-- Counterexample to C6: on `cexRankedLists`, document `c` (appearing
twice in one list) receives `1/62 + 1/63 = 125/3906`, not the claimed
single per-list term `1/(60 + rank(c)) = 1/62`; and the tie between `a`
and `b` (both `1/61`) is resolved by insertion order (`a` first), not by
the claimed best-original-score tie-break (which would put `b`, best −1,
before `a`, best −2): the output violates the claimed sort order. -/
theorem rrf_counterexample :
    reciprocal_rank_fusion cexRankedLists 60 =
      [("c", mkRat 125 3906), ("a", mkRat 1 61), ("b", mkRat 1 61)] ∧
    rrfClaimScore 60 cexRankedLists "c" = mkRat 1 62 ∧
    mkRat 125 3906 ≠ mkRat 1 62 ∧
    ¬ rrfClaimSorted cexRankedLists (reciprocal_rank_fusion cexRankedLists 60) := by
  have h1 : reciprocal_rank_fusion cexRankedLists 60 =
      [("c", mkRat 125 3906), ("a", mkRat 1 61), ("b", mkRat 1 61)] := by
    norm_num [cexRankedLists, reciprocal_rank_fusion, rrfState, processItems, updateState,
      sortD, insertD, rrfLe, Rat.mkRat_eq_div]
  have hbb : rrfClaimBest cexRankedLists "b" = -1 := by
    have hab : ("a" : String) ≠ "b" := by decide
    have hcb : ("c" : String) ≠ "b" := by decide
    norm_num [cexRankedLists, rrfClaimBest, List.filter, hab, hcb]
  have hba : rrfClaimBest cexRankedLists "a" = -2 := by
    have hca : ("c" : String) ≠ "a" := by decide
    have hba' : ("b" : String) ≠ "a" := by decide
    norm_num [cexRankedLists, rrfClaimBest, List.filter, hca, hba']
  refine ⟨h1, ?_, by decide, ?_⟩
  · have hbc : ("b" : String) ≠ "c" := by decide
    have hac : ("a" : String) ≠ "c" := by decide
    norm_num [cexRankedLists, rrfClaimScore, firstRank, List.findIdx?, hbc, hac,
      Rat.mkRat_eq_div]
  · rw [h1]
    intro h
    unfold rrfClaimSorted at h
    rcases List.pairwise_cons.mp h with ⟨_, h2⟩
    rcases List.pairwise_cons.mp h2 with ⟨h3, _⟩
    have h4 := h3 ("b", mkRat 1 61) (List.mem_singleton.mpr rfl)
    rcases h4 with h5 | ⟨_, h6⟩
    · exact absurd h5 (by decide)
    · rw [hbb, hba] at h6
      norm_num at h6
